import Mathlib

/-!
Verification of the text-location and annotation core of the ManipuCheck
browser extension (src/content/text-matcher.ts, src/content/text-highlighter.ts,
src/shared/utils.ts).

Strings are modelled as `List Char` (JavaScript string indices are code units;
for the material verified here the two coincide).  DOM documents are modelled
as ordered trees of element nodes and text leaves.
-/

namespace ManipuCheck

/-- One JavaScript string as a list of characters. -/
abbrev Str := List Char

/-- Convert a Lean string literal to the model representation. -/
def str (s : String) : Str := s.data

/-- Whitespace test, modelling the JavaScript regex class backslash-s for the
character repertoire exercised by this code base. -/
def isWs (c : Char) : Bool := c = ' ' || c = '\t' || c = '\n' || c = '\r'

/-- One pass of `text.replace(/\s+/g, ' ')`: every maximal whitespace run is
replaced by a single space.  The boolean argument records whether the
previous character belonged to a whitespace run. -/
def collapseGo : Bool → Str → Str
  | _, [] => []
  | prevWs, c :: rest =>
    if isWs c then
      if prevWs then collapseGo true rest else ' ' :: collapseGo true rest
    else c :: collapseGo false rest

/-- `String.prototype.trim()`: drop leading and trailing whitespace. -/
def trimChars (cs : Str) : Str :=
  ((cs.dropWhile (fun c => isWs c)).reverse.dropWhile (fun c => isWs c)).reverse

/-- `normalizeText` from src/shared/utils.ts:
`text.replace(/\s+/g, ' ').trim()`. -/
def normalizeText (cs : Str) : Str :=
  trimChars (collapseGo false cs)

/-- `String.prototype.indexOf(target, start)`: scan positions upward from
`start` and return the first at which `target` occurs, if any.  The scan is
bounded by a fuel argument so that it is structurally recursive; callers pass
enough fuel to cover every position up to the end of the string. -/
def indexOfGo (s t : Str) : Nat → Nat → Option Nat
  | 0, _ => none
  | fuel + 1, i =>
    if i ≤ s.length then
      if t.isPrefixOf (s.drop i) then some i else indexOfGo s t fuel (i + 1)
    else none

/-- `String.prototype.indexOf(target, start)`. -/
def indexOfFrom (s t : Str) (start : Nat) : Option Nat :=
  indexOfGo s t (s.length + 1 - start) start

theorem indexOfGo_some_bounds (s t : Str) :
    ∀ (fuel i j : Nat), indexOfGo s t fuel i = some j →
      i ≤ j ∧ j ≤ s.length ∧ t.isPrefixOf (s.drop j) = true := by
  intro fuel
  induction fuel with
  | zero => intro i j h; exact absurd h (by simp [indexOfGo])
  | succ n ih =>
    intro i j h
    unfold indexOfGo at h
    split at h
    · split at h
      · rename_i hle hpre
        cases h
        exact ⟨Nat.le_refl _, by omega, hpre⟩
      · have := ih (i + 1) j h
        exact ⟨by omega, this.2.1, this.2.2⟩
    · exact absurd h (by simp)

/-- The `while ((matchIndex = indexOf(target, searchStart)) !== -1)` loop of
`findTextRanges`: collect every hit, restarting the search at the previous
hit plus one.  Fuel bounds the number of loop iterations; since each
iteration strictly advances the cursor within the string, the wrapper's fuel
covers the whole loop. -/
def findMatchesGo (full target : Str) : Nat → Nat → List Nat
  | 0, _ => []
  | fuel + 1, start =>
    match indexOfFrom full target start with
    | none => []
    | some i => i :: findMatchesGo full target fuel (i + 1)

/-- The search loop of `findTextRanges`, starting the cursor at `start`. -/
def findMatchesFrom (full target : Str) (start : Nat) : List Nat :=
  findMatchesGo full target (full.length + 1 - start) start

/-- `TextPositionMap` entry from src/content/text-matcher.ts: one walker-visited
text node together with its normalized text and its half-open interval in the
shared normalized coordinate space. -/
structure TextPositionMap (α : Type) where
  node : α
  startOffset : Nat
  endOffset : Nat
  normalizedText : Str
deriving Repr, DecidableEq

/-- A located boundary: `NodeLocation` from text-matcher.ts. -/
structure NodeLocation (α : Type) where
  node : α
  offset : Nat
deriving Repr, DecidableEq

/-- `DOMRange` from text-matcher.ts: the concrete boundary produced by
`createDOMRange` (the contained `Range` is represented by its start and end
boundary points) plus the text captured at creation time. -/
structure DOMRange (α : Type) where
  startNode : α
  startOffset : Nat
  endNode : α
  endOffset : Nat
  originalText : Str
  normalizedText : Str
deriving Repr, DecidableEq

/-- The loop body of `buildTextNodeMap`: walk the accepted text nodes in
document order, keep those whose normalized text is non-empty, and assign
offsets, advancing the running offset by the normalized length plus one
(the `if (globalOffset > 0) globalOffset += 1` separator step, which fires
after every kept node). -/
def buildMapGo {α : Type} : List (α × Str) → Nat → List (TextPositionMap α)
  | [], _ => []
  | (a, raw) :: rest, off =>
    let n := normalizeText raw
    if n.length > 0 then
      { node := a, startOffset := off, endOffset := off + n.length, normalizedText := n }
        :: buildMapGo rest (off + n.length + 1)
    else buildMapGo rest off

/-- `Array.prototype.join(' ')`. -/
def joinSpace : List Str → Str
  | [] => []
  | [x] => x
  | x :: rest => x ++ ' ' :: joinSpace rest

/-- The state a `TextMatcher` instance holds after its constructor ran
`buildTextNodeMap`: the snapshot of all walker-visited text nodes (node
identity paired with its raw text), the position map, and the concatenated
normalized text. -/
structure TextMatcher (α : Type) where
  leaves : List (α × Str)
  textPositionMap : List (TextPositionMap α)
  fullNormalizedText : Str

/-- Build a `TextMatcher` from the ordered list of walker-accepted text nodes,
as the constructor and `buildTextNodeMap` do. -/
def mkMatcher {α : Type} (leaves : List (α × Str)) : TextMatcher α :=
  { leaves := leaves
    textPositionMap := buildMapGo leaves 0
    fullNormalizedText := joinSpace ((buildMapGo leaves 0).map (fun s => s.normalizedText)) }

/-- Reading `node.textContent` of a snapshot node: look the node up in the
matcher's leaf list (node identity is the lookup key, playing the role of the
object reference held by the position map). -/
def lookupRaw {α : Type} [DecidableEq α] (leaves : List (α × Str)) (a : α) : Str :=
  match leaves.find? (fun l => decide (l.fst = a)) with
  | some l => l.snd
  | none => []

/-- The loop of `denormalizeOffset`: walk the raw characters, counting one
normalized unit per character except that any character continuing a
whitespace run counts nothing, and stop once `normalizedOffset` units have
been counted.  Arguments: remaining characters, whether the previous raw
character was whitespace, units counted so far, the target count, and the
raw position consumed so far. -/
def denormGo : Str → Bool → Nat → Nat → Nat → Nat
  | [], _, _, _, pos => pos
  | c :: rest, prevWs, np, t, pos =>
    if np < t then
      denormGo rest (isWs c) (if isWs c then (if prevWs then np else np + 1) else np + 1) t (pos + 1)
    else pos

/-- `denormalizeOffset` from text-matcher.ts. -/
def denormalizeOffset (originalText : Str) (normalizedOffset : Nat) : Nat :=
  min (denormGo originalText false 0 normalizedOffset 0) originalText.length

/-- The scan of `findNodeAtPosition`: advance `currentPos` over the position
map by each entry's normalized length plus one, and resolve the first entry
whose window contains `position`. -/
def findNodeAtPosGo {α : Type} [DecidableEq α] (leaves : List (α × Str)) :
    List (TextPositionMap α) → Nat → Nat → Option (NodeLocation α)
  | [], _, _ => none
  | seg :: rest, currentPos, position =>
    let nodeLength := seg.normalizedText.length
    if currentPos ≤ position ∧ position < currentPos + nodeLength then
      let relativeOffset := position - currentPos
      let raw := lookupRaw leaves seg.node
      let originalOffset := denormalizeOffset raw relativeOffset
      some { node := seg.node, offset := min originalOffset raw.length }
    else findNodeAtPosGo leaves rest (currentPos + nodeLength + 1) position

/-- `findNodeAtPosition` from text-matcher.ts. -/
def findNodeAtPosition {α : Type} [DecidableEq α] (m : TextMatcher α) (position : Nat) :
    Option (NodeLocation α) :=
  findNodeAtPosGo m.leaves m.textPositionMap 0 position

/-- `Range.prototype.toString()` over the snapshot: the concatenation of the
character data strictly between the two boundary points, taken over all
text nodes of the document in order (including nodes the walker filtered
out, which is why it reads the full leaf list). -/
def rangeToString {α : Type} [DecidableEq α] (leaves : List (α × Str))
    (sa : α) (so : Nat) (ea : α) (eo : Nat) : Str :=
  match leaves.findIdx? (fun l => decide (l.fst = sa)),
        leaves.findIdx? (fun l => decide (l.fst = ea)) with
  | some i, some j =>
    if i = j then ((lookupRaw leaves sa).take eo).drop so
    else if i < j then
      ((lookupRaw leaves sa).drop so)
        ++ joinStrs (((leaves.drop (i + 1)).take (j - i - 1)).map (fun l => l.snd))
        ++ ((lookupRaw leaves ea).take eo)
    else []
  | _, _ => []
where
  joinStrs : List Str → Str
    | [] => []
    | x :: rest => x ++ joinStrs rest

/-- `createDOMRange` from text-matcher.ts.  The `try` block models
`document.createRange()` / `setStart` / `setEnd`, which throw exactly when a
boundary offset exceeds its node's data length; the `catch` returns `null`. -/
def createDOMRange {α : Type} [DecidableEq α] (m : TextMatcher α) (startPos endPos : Nat) :
    Option (DOMRange α) :=
  match findNodeAtPosition m startPos, findNodeAtPosition m (endPos - 1) with
  | some s, some e =>
    if s.offset ≤ (lookupRaw m.leaves s.node).length
        ∧ e.offset + 1 ≤ (lookupRaw m.leaves e.node).length then
      let orig := rangeToString m.leaves s.node s.offset e.node (e.offset + 1)
      some { startNode := s.node, startOffset := s.offset,
             endNode := e.node, endOffset := e.offset + 1,
             originalText := orig, normalizedText := normalizeText orig }
    else none
  | _, _ => none

/-- `findTextRanges` from text-matcher.ts: normalize the target, return
nothing for an empty normalization, otherwise report a range for every
`indexOf` hit (the cursor advances by one after each hit), skipping hits
whose `createDOMRange` returned `null`. -/
def findTextRanges {α : Type} [DecidableEq α] (m : TextMatcher α) (targetText : Str) :
    List (DOMRange α) :=
  let normalizedTarget := normalizeText targetText
  if normalizedTarget.length = 0 then []
  else
    (findMatchesFrom m.fullNormalizedText normalizedTarget 0).filterMap
      (fun i => createDOMRange m i (i + normalizedTarget.length))

/-- `String.prototype.split(' ')` (split on every single space; an empty
string yields one empty piece). -/
def splitSpaceGo : Str → Str → List Str
  | acc, [] => [acc.reverse]
  | acc, c :: rest =>
    if c = ' ' then acc.reverse :: splitSpaceGo [] rest else splitSpaceGo (c :: acc) rest

/-- `String.prototype.split(' ')`. -/
def splitSpace (cs : Str) : List Str := splitSpaceGo [] cs

/-- `calculateSimilarity` from text-matcher.ts: word-set Jaccard similarity of
the two lowercased strings.  `Set` sizes are modelled by deduplicated list
lengths; the ratio is taken in `ℚ`. -/
def calculateSimilarity (text1 text2 : Str) : ℚ :=
  let words1 := (splitSpace (text1.map Char.toLower)).dedup
  let words2 := (splitSpace (text2.map Char.toLower)).dedup
  let inter := words1.filter (fun w => decide (w ∈ words2))
  let union := (words1 ++ words2).dedup
  (inter.length : ℚ) / (union.length : ℚ)

/-- The declared default of the `threshold` parameter of
`findFuzzyTextRanges(targetText, threshold: number = 0.8)`. -/
def fuzzyThresholdDefault : ℚ := 8 / 10

/-- The threshold the pipeline actually passes:
`findFuzzyTextRanges(manipulation.original_text, 0.7)` in text-highlighter.ts. -/
def fuzzyThresholdUsed : ℚ := 7 / 10

/-- `findFuzzyTextRanges` from text-matcher.ts: guard on normalized length and
word count, slide a window of `min(words.length * 2, 20)` words over the word
sequence of the concatenated text, and emit a range for every window whose
similarity reaches the threshold and whose `createDOMRange` succeeds. -/
def findFuzzyTextRanges {α : Type} [DecidableEq α] (m : TextMatcher α)
    (targetText : Str) (threshold : ℚ) : List (DOMRange α) :=
  let normalizedTarget := normalizeText targetText
  if normalizedTarget.length < 10 then []
  else
    let words := splitSpace normalizedTarget
    if words.length < 3 then []
    else
      let windowSize := min (words.length * 2) 20
      let fullTextWords := splitSpace m.fullNormalizedText
      (List.range (fullTextWords.length + 1 - windowSize)).filterMap (fun i =>
        let window := joinSpace ((fullTextWords.drop i).take windowSize)
        let similarity := calculateSimilarity normalizedTarget window
        if threshold ≤ similarity then
          let windowStart := (joinSpace (fullTextWords.take i)).length
          let windowEnd := windowStart + window.length
          createDOMRange m windowStart windowEnd
        else none)

/-- The range-selection step of `highlightManipulation` in
text-highlighter.ts: exact matching first, and only when it produced zero
ranges, fuzzy matching at threshold 0.7. -/
def rangesForManipulation {α : Type} [DecidableEq α] (m : TextMatcher α)
    (targetText : Str) : List (DOMRange α) :=
  let ranges := findTextRanges m targetText
  if ranges = [] then findFuzzyTextRanges m targetText fuzzyThresholdUsed else ranges

/-! ## Facts about normalization -/

theorem dropWhile_head?_not {p : Char → Bool} :
    ∀ {l : Str} {c : Char}, (l.dropWhile p).head? = some c → p c = false := by
  intro l
  induction l with
  | nil => intro c h; simp at h
  | cons a rest ih =>
    intro c h
    rw [List.dropWhile_cons] at h
    split at h
    · exact ih h
    · rename_i hpa
      simp only [List.head?_cons, Option.some.injEq] at h
      subst h
      simpa using hpa

theorem dropWhile_getLast? {p : Char → Bool} :
    ∀ {l : Str}, l.dropWhile p ≠ [] → (l.dropWhile p).getLast? = l.getLast? := by
  intro l
  induction l with
  | nil => simp
  | cons a rest ih =>
    intro h
    by_cases hpa : p a
    · rw [List.dropWhile_cons, if_pos hpa] at h ⊢
      have hrest : rest ≠ [] := by
        intro hnil
        subst hnil
        simp at h
      rw [ih h]
      obtain ⟨b, rest', rfl⟩ := List.exists_cons_of_ne_nil hrest
      rw [List.getLast?_cons_cons]
    · rw [List.dropWhile_cons, if_neg hpa]

theorem trimChars_head?_not_ws {cs : Str} {c : Char} (h : (trimChars cs).head? = some c) :
    isWs c = false := by
  unfold trimChars at h
  rw [List.head?_reverse] at h
  have hne : (((cs.dropWhile fun c => isWs c).reverse).dropWhile fun c => isWs c) ≠ [] := by
    intro hnil
    rw [hnil] at h
    simp at h
  rw [dropWhile_getLast? hne, List.getLast?_reverse] at h
  exact dropWhile_head?_not h

theorem trimChars_getLast?_not_ws {cs : Str} {c : Char} (h : (trimChars cs).getLast? = some c) :
    isWs c = false := by
  unfold trimChars at h
  rw [List.getLast?_reverse] at h
  exact dropWhile_head?_not h

/-- Unit count of the collapsing pass: one unit per character except that a
character continuing a whitespace run contributes nothing.  This is the
count `denormalizeOffset` advances through. -/
def unitsFrom : Bool → Str → Nat
  | _, [] => 0
  | prevWs, c :: rest => (if isWs c then (if prevWs then 0 else 1) else 1) + unitsFrom (isWs c) rest

theorem collapseGo_length (cs : Str) : ∀ b, (collapseGo b cs).length = unitsFrom b cs := by
  induction cs with
  | nil => intro b; simp [collapseGo, unitsFrom]
  | cons c rest ih =>
    intro b
    simp only [collapseGo, unitsFrom]
    by_cases h : isWs c
    · by_cases hb : b <;> simp [h, hb, ih, Nat.add_comm]
    · simp [h, ih, Nat.add_comm]

theorem denormGo_lt (cs : Str) : ∀ (prevWs : Bool) (np t pos : Nat),
    np ≤ t → t < np + unitsFrom prevWs cs →
    denormGo cs prevWs np t pos < pos + cs.length := by
  induction cs with
  | nil =>
    intro prevWs np t pos h1 h2
    simp [unitsFrom] at h2
    omega
  | cons c rest ih =>
    intro prevWs np t pos h1 h2
    simp only [denormGo]
    by_cases hnp : np < t
    · simp only [if_pos hnp]
      simp only [unitsFrom] at h2
      have hrec := ih (isWs c)
        (if isWs c then (if prevWs then np else np + 1) else np + 1) t (pos + 1)
      by_cases hw : isWs c
      · by_cases hp : prevWs
        · simp only [hw, hp, if_pos] at hrec h2 ⊢
          have := hrec (by omega) (by omega)
          simpa [Nat.add_comm, Nat.add_assoc, Nat.add_left_comm] using this
        · simp only [hw, hp, if_pos, if_neg, Bool.false_eq_true, if_false] at hrec h2 ⊢
          have := hrec (by omega) (by omega)
          simp only [List.length_cons]
          omega
      · simp only [hw, Bool.false_eq_true, if_false] at hrec h2 ⊢
        have := hrec (by omega) (by omega)
        simp only [List.length_cons]
        omega
    · simp only [if_neg hnp, List.length_cons]
      omega

theorem normalizeText_length_le (cs : Str) :
    (normalizeText cs).length ≤ unitsFrom false cs := by
  unfold normalizeText trimChars
  rw [List.length_reverse]
  calc ((((collapseGo false cs).dropWhile fun c => isWs c).reverse.dropWhile
          fun c => isWs c)).length
      ≤ (((collapseGo false cs).dropWhile fun c => isWs c).reverse).length :=
        (List.dropWhile_sublist _).length_le
    _ = (((collapseGo false cs).dropWhile fun c => isWs c)).length := List.length_reverse _
    _ ≤ (collapseGo false cs).length := (List.dropWhile_sublist _).length_le
    _ = unitsFrom false cs := collapseGo_length cs false

theorem denormalizeOffset_lt {cs : Str} {t : Nat} (h : t < (normalizeText cs).length) :
    denormalizeOffset cs t < cs.length := by
  have h2 : t < 0 + unitsFrom false cs := by
    have := normalizeText_length_le cs
    omega
  have h3 := denormGo_lt cs false 0 t 0 (Nat.zero_le _) h2
  unfold denormalizeOffset
  omega

/-! ## Invariants of the position map built by `buildTextNodeMap` -/

/-- The chain invariant of the position map: starting at `off`, every entry
begins exactly where the running offset stands, spans exactly its normalized
length, is non-empty, and is followed by the rest of the map one separator
position later. -/
def segsChained {α : Type} : Nat → List (TextPositionMap α) → Prop
  | _, [] => True
  | off, seg :: rest =>
    seg.startOffset = off ∧ seg.endOffset = off + seg.normalizedText.length ∧
      0 < seg.normalizedText.length ∧ segsChained (seg.endOffset + 1) rest

/-- The concatenated normalized text reconstructed from a position map. -/
def fullOf {α : Type} (segs : List (TextPositionMap α)) : Str :=
  joinSpace (segs.map (fun s => s.normalizedText))

theorem buildMapGo_chained {α : Type} (leaves : List (α × Str)) :
    ∀ off, segsChained off (buildMapGo leaves off) := by
  induction leaves with
  | nil => intro off; simp [buildMapGo, segsChained]
  | cons l rest ih =>
    intro off
    obtain ⟨a, raw⟩ := l
    simp only [buildMapGo]
    by_cases h : (normalizeText raw).length > 0
    · rw [if_pos h]
      exact ⟨rfl, rfl, h, ih _⟩
    · rw [if_neg h]
      exact ih off

theorem buildMapGo_norm_from_leaf {α : Type} (leaves : List (α × Str)) :
    ∀ off seg, seg ∈ buildMapGo leaves off →
      ∃ raw, (seg.node, raw) ∈ leaves ∧ seg.normalizedText = normalizeText raw := by
  induction leaves with
  | nil => intro off seg h; simp [buildMapGo] at h
  | cons l rest ih =>
    intro off seg h
    obtain ⟨a, raw⟩ := l
    simp only [buildMapGo] at h
    by_cases hl : (normalizeText raw).length > 0
    · rw [if_pos hl] at h
      rcases List.mem_cons.mp h with rfl | h
      · exact ⟨raw, List.mem_cons_self _ _, rfl⟩
      · obtain ⟨r, hr1, hr2⟩ := ih _ seg h
        exact ⟨r, List.mem_cons_of_mem _ hr1, hr2⟩
    · rw [if_neg hl] at h
      obtain ⟨r, hr1, hr2⟩ := ih _ seg h
      exact ⟨r, List.mem_cons_of_mem _ hr1, hr2⟩

theorem segsChained_bounds {α : Type} :
    ∀ (segs : List (TextPositionMap α)) (off : Nat), segsChained off segs →
      ∀ seg ∈ segs, off ≤ seg.startOffset ∧
        seg.endOffset = seg.startOffset + seg.normalizedText.length ∧
        0 < seg.normalizedText.length := by
  intro segs
  induction segs with
  | nil => simp
  | cons s rest ih =>
    intro off hch seg hmem
    obtain ⟨h1, h2, h3, h4⟩ := hch
    rcases List.mem_cons.mp hmem with rfl | hmem
    · exact ⟨Nat.le_of_eq h1.symm, by omega, h3⟩
    · have := ih _ h4 seg hmem
      refine ⟨?_, this.2.1, this.2.2⟩
      omega

theorem joinSpace_cons_cons (x y : Str) (l : List Str) :
    joinSpace (x :: y :: l) = x ++ ' ' :: joinSpace (y :: l) := rfl

theorem fullOf_restrict {α : Type} :
    ∀ (segs : List (TextPositionMap α)) (off : Nat), segsChained off segs →
      ∀ seg ∈ segs,
        ((fullOf segs).drop (seg.startOffset - off)).take seg.normalizedText.length
          = seg.normalizedText := by
  intro segs
  induction segs with
  | nil => simp
  | cons s rest ih =>
    intro off hch seg hmem
    obtain ⟨h1, h2, h3, h4⟩ := hch
    rcases List.mem_cons.mp hmem with rfl | hmem
    · rw [h1, Nat.sub_self, List.drop_zero]
      cases rest with
      | nil =>
        show (joinSpace [seg.normalizedText]).take seg.normalizedText.length
          = seg.normalizedText
        simp [joinSpace]
      | cons r rest' =>
        show ((joinSpace (seg.normalizedText :: r.normalizedText :: _)).take
          seg.normalizedText.length) = seg.normalizedText
        rw [joinSpace_cons_cons]
        exact List.take_left _ _
    · cases rest with
      | nil => simp at hmem
      | cons r rest' =>
        have hb := segsChained_bounds _ _ h4 seg hmem
        have hstart : s.endOffset + 1 ≤ seg.startOffset := hb.1
        have hd : seg.startOffset - off
            = s.normalizedText.length + (1 + (seg.startOffset - (s.endOffset + 1))) := by
          omega
        show (((fullOf (s :: r :: rest')).drop (seg.startOffset - off)).take
          seg.normalizedText.length) = seg.normalizedText
        have hjoin : fullOf (s :: r :: rest')
            = s.normalizedText ++ ' ' :: fullOf (r :: rest') := by
          show joinSpace (s.normalizedText :: r.normalizedText :: _)
            = s.normalizedText ++ ' ' :: joinSpace (r.normalizedText :: _)
          rw [joinSpace_cons_cons]
        rw [hjoin, hd, List.drop_append, Nat.add_comm 1 _, List.drop_succ_cons]
        exact ih _ h4 seg hmem


theorem fullOf_length_bound {α : Type} :
    ∀ (segs : List (TextPositionMap α)) (off : Nat), segsChained off segs →
      ∀ seg ∈ segs, seg.endOffset ≤ off + (fullOf segs).length := by
  intro segs
  induction segs with
  | nil => simp
  | cons s rest ih =>
    intro off hch seg hmem
    obtain ⟨h1, h2, h3, h4⟩ := hch
    rcases List.mem_cons.mp hmem with rfl | hmem
    · cases rest with
      | nil =>
        show seg.endOffset ≤ off + (joinSpace [seg.normalizedText]).length
        simp [joinSpace]
        omega
      | cons r rest' =>
        have : fullOf (seg :: r :: rest')
            = seg.normalizedText ++ ' ' :: fullOf (r :: rest') := joinSpace_cons_cons _ _ _
        rw [this]
        simp only [List.length_append, List.length_cons]
        omega
    · cases rest with
      | nil => simp at hmem
      | cons r rest' =>
        have hrec := ih _ h4 seg hmem
        have : fullOf (s :: r :: rest')
            = s.normalizedText ++ ' ' :: fullOf (r :: rest') := joinSpace_cons_cons _ _ _
        rw [this]
        simp only [List.length_append, List.length_cons]
        omega

theorem fullOf_pos_class {α : Type} :
    ∀ (segs : List (TextPositionMap α)) (off p : Nat), segsChained off segs →
      p < (fullOf segs).length →
      (∃ seg ∈ segs, seg.startOffset ≤ off + p ∧ off + p < seg.endOffset) ∨
        (fullOf segs).get? p = some ' ' := by
  intro segs
  induction segs with
  | nil => intro off p _ hp; simp [fullOf, joinSpace] at hp
  | cons s rest ih =>
    intro off p hch hp
    obtain ⟨h1, h2, h3, h4⟩ := hch
    cases rest with
    | nil =>
      left
      refine ⟨s, List.mem_cons_self _ _, by omega, ?_⟩
      have : (fullOf [s]).length = s.normalizedText.length := by simp [fullOf, joinSpace]
      omega
    | cons r rest' =>
      have hjoin : fullOf (s :: r :: rest')
          = s.normalizedText ++ ' ' :: fullOf (r :: rest') := joinSpace_cons_cons _ _ _
      by_cases hlt : p < s.normalizedText.length
      · left
        exact ⟨s, List.mem_cons_self _ _, by omega, by omega⟩
      · by_cases heq : p = s.normalizedText.length
        · right
          rw [hjoin, List.get?_append_right (by omega), heq, Nat.sub_self]
          rfl
        · have hlen : p < s.normalizedText.length + 1 + (fullOf (r :: rest')).length := by
            rw [hjoin] at hp
            simp only [List.length_append, List.length_cons] at hp
            omega
          have hrec := ih (s.endOffset + 1) (p - s.normalizedText.length - 1) h4 (by omega)
          rcases hrec with ⟨seg, hseg, hs1, hs2⟩ | hsep
          · left
            refine ⟨seg, List.mem_cons_of_mem _ hseg, by omega, by omega⟩
          · right
            rw [hjoin, List.get?_append_right (by omega)]
            have : p - s.normalizedText.length = (p - s.normalizedText.length - 1) + 1 := by
              omega
            rw [this, List.get?_cons_succ]
            exact hsep

/-! ## Characterization of `findNodeAtPosition` -/

theorem findNodeAtPosGo_none {α : Type} [DecidableEq α] (leaves : List (α × Str)) :
    ∀ (segs : List (TextPositionMap α)) (off p : Nat), segsChained off segs →
      (∀ seg ∈ segs, ¬(seg.startOffset ≤ p ∧ p < seg.endOffset)) →
      findNodeAtPosGo leaves segs off p = none := by
  intro segs
  induction segs with
  | nil => intro off p _ _; rfl
  | cons s rest ih =>
    intro off p hch hno
    obtain ⟨h1, h2, h3, h4⟩ := hch
    have hs := hno s (List.mem_cons_self _ _)
    simp only [findNodeAtPosGo]
    rw [if_neg (by omega)]
    have : off + s.normalizedText.length + 1 = s.endOffset + 1 := by omega
    rw [this]
    exact ih _ _ h4 (fun seg hseg => hno seg (List.mem_cons_of_mem _ hseg))

theorem findNodeAtPosGo_some {α : Type} [DecidableEq α] (leaves : List (α × Str)) :
    ∀ (segs : List (TextPositionMap α)) (off p : Nat)
      (seg : TextPositionMap α), segsChained off segs → seg ∈ segs →
      seg.startOffset ≤ p → p < seg.endOffset →
      findNodeAtPosGo leaves segs off p =
        some { node := seg.node,
               offset := min (denormalizeOffset (lookupRaw leaves seg.node)
                   (p - seg.startOffset)) (lookupRaw leaves seg.node).length } := by
  intro segs
  induction segs with
  | nil => intro off p seg _ hmem; simp at hmem
  | cons s rest ih =>
    intro off p seg hch hmem hp1 hp2
    obtain ⟨h1, h2, h3, h4⟩ := hch
    rcases List.mem_cons.mp hmem with rfl | hmem
    · simp only [findNodeAtPosGo]
      rw [if_pos (by omega)]
      have : p - off = p - seg.startOffset := by omega
      rw [this]
    · have hb := segsChained_bounds _ _ h4 seg hmem
      simp only [findNodeAtPosGo]
      rw [if_neg (by omega)]
      have : off + s.normalizedText.length + 1 = s.endOffset + 1 := by omega
      rw [this]
      exact ih _ _ seg h4 hmem hp1 hp2

theorem mkMatcher_map {α : Type} (leaves : List (α × Str)) :
    (mkMatcher leaves).textPositionMap = buildMapGo leaves 0 := rfl

theorem mkMatcher_full {α : Type} (leaves : List (α × Str)) :
    (mkMatcher leaves).fullNormalizedText = fullOf (buildMapGo leaves 0) := rfl

theorem findNodeAtPosition_none {α : Type} [DecidableEq α] (leaves : List (α × Str))
    (p : Nat)
    (h : ∀ seg ∈ (mkMatcher leaves).textPositionMap,
      ¬(seg.startOffset ≤ p ∧ p < seg.endOffset)) :
    findNodeAtPosition (mkMatcher leaves) p = none :=
  findNodeAtPosGo_none leaves _ 0 p (buildMapGo_chained leaves 0) h

theorem findNodeAtPosition_some {α : Type} [DecidableEq α] (leaves : List (α × Str))
    (p : Nat) (seg : TextPositionMap α)
    (hmem : seg ∈ (mkMatcher leaves).textPositionMap)
    (hp1 : seg.startOffset ≤ p) (hp2 : p < seg.endOffset) :
    findNodeAtPosition (mkMatcher leaves) p =
      some { node := seg.node,
             offset := min (denormalizeOffset (lookupRaw leaves seg.node)
                 (p - seg.startOffset)) (lookupRaw leaves seg.node).length } :=
  findNodeAtPosGo_some leaves _ 0 p seg (buildMapGo_chained leaves 0) hmem hp1 hp2

/-! ## Node lookup under distinct node identities -/

theorem lookupRaw_of_mem {α : Type} [DecidableEq α] :
    ∀ {leaves : List (α × Str)} {a : α} {raw : Str},
      (leaves.map Prod.fst).Nodup → (a, raw) ∈ leaves → lookupRaw leaves a = raw := by
  intro leaves
  induction leaves with
  | nil => intro a raw _ h; simp at h
  | cons l rest ih =>
    intro a raw hnd hmem
    obtain ⟨b, r⟩ := l
    rw [List.map_cons, List.nodup_cons] at hnd
    rcases List.mem_cons.mp hmem with heq | hmem
    · rw [Prod.mk.injEq] at heq
      obtain ⟨rfl, rfl⟩ := heq
      unfold lookupRaw
      simp
    · by_cases hab : b = a
      · exfalso
        subst hab
        have hx : (b, raw).fst ∈ rest.map Prod.fst := List.mem_map_of_mem Prod.fst hmem
        exact hnd.1 hx
      · unfold lookupRaw
        rw [List.find?_cons_of_neg _ (by simp [hab])]
        exact ih hnd.2 hmem

theorem buildMap_lookup_norm {α : Type} [DecidableEq α] {leaves : List (α × Str)}
    (hnd : (leaves.map Prod.fst).Nodup) {off : Nat} {seg : TextPositionMap α}
    (h : seg ∈ buildMapGo leaves off) :
    normalizeText (lookupRaw leaves seg.node) = seg.normalizedText := by
  obtain ⟨raw, hmem, hnorm⟩ := buildMapGo_norm_from_leaf leaves off seg h
  rw [lookupRaw_of_mem hnd hmem, hnorm]

/-! ## For an exact hit on a trimmed target, `createDOMRange` succeeds -/

theorem isWs_space : isWs ' ' = true := by decide

theorem prefix_get? {t l : Str} (h : t <+: l) {k : Nat} (hk : k < t.length) :
    l.get? k = t.get? k := by
  obtain ⟨u, rfl⟩ := h
  exact List.get?_append hk

theorem createDOMRange_some_some {α : Type} [DecidableEq α] (m : TextMatcher α)
    (sp ep : Nat) (s e : NodeLocation α)
    (hs : findNodeAtPosition m sp = some s)
    (he : findNodeAtPosition m (ep - 1) = some e) :
    createDOMRange m sp ep =
      if s.offset ≤ (lookupRaw m.leaves s.node).length
          ∧ e.offset + 1 ≤ (lookupRaw m.leaves e.node).length then
        some { startNode := s.node, startOffset := s.offset, endNode := e.node,
               endOffset := e.offset + 1,
               originalText := rangeToString m.leaves s.node s.offset e.node (e.offset + 1),
               normalizedText := normalizeText
                 (rangeToString m.leaves s.node s.offset e.node (e.offset + 1)) }
      else none := by
  unfold createDOMRange
  rw [hs, he]

theorem createDOMRange_isSome {α : Type} [DecidableEq α] {leaves : List (α × Str)}
    (hnd : (leaves.map Prod.fst).Nodup) {nt : Str} {i : Nat}
    (hpre : nt <+: ((mkMatcher leaves).fullNormalizedText.drop i))
    (hh : ∀ c, nt.head? = some c → isWs c = false)
    (hlast : ∀ c, nt.getLast? = some c → isWs c = false)
    (hne : nt ≠ []) :
    (createDOMRange (mkMatcher leaves) i (i + nt.length)).isSome = true := by
  have hch := buildMapGo_chained leaves 0
  have hfull : (mkMatcher leaves).fullNormalizedText = fullOf (buildMapGo leaves 0) := rfl
  have hntlen : 0 < nt.length := List.length_pos.mpr hne
  have hlenle : nt.length ≤ (mkMatcher leaves).fullNormalizedText.length - i := by
    have := hpre.length_le
    rwa [List.length_drop] at this
  have hi : i + nt.length ≤ (mkMatcher leaves).fullNormalizedText.length := by
    by_cases hcase : i ≤ (mkMatcher leaves).fullNormalizedText.length
    · omega
    · exfalso
      rw [List.drop_eq_nil_of_le (by omega)] at hpre
      exact hne (List.prefix_nil.mp hpre)
  -- the first character of the hit
  obtain ⟨c0, hc0⟩ : ∃ c, nt.head? = some c := by
    cases nt with
    | nil => exact absurd rfl hne
    | cons a l => exact ⟨a, rfl⟩
  have hgs : (mkMatcher leaves).fullNormalizedText.get? i = some c0 := by
    have h1 : ((mkMatcher leaves).fullNormalizedText.drop i).get? 0 = nt.get? 0 :=
      prefix_get? hpre hntlen
    rw [List.get?_drop, Nat.add_zero] at h1
    rw [h1, List.get?_eq_getElem?, ← List.head?_eq_getElem?]
    exact hc0
  have hsegS : ∃ seg ∈ buildMapGo leaves 0, seg.startOffset ≤ i ∧ i < seg.endOffset := by
    have := fullOf_pos_class (buildMapGo leaves 0) 0 i hch (by rw [← hfull]; omega)
    rcases this with ⟨seg, hm, h1, h2⟩ | hsp
    · exact ⟨seg, hm, by omega, by omega⟩
    · rw [← hfull, hgs] at hsp
      have : c0 = ' ' := by simpa using hsp
      subst this
      exact absurd (hh _ hc0) (by simp [isWs_space])
  -- the last character of the hit
  obtain ⟨ce, hce⟩ : ∃ c, nt.getLast? = some c := by
    cases hx : nt.getLast? with
    | none => exact absurd (List.getLast?_eq_none_iff.mp hx) hne
    | some c => exact ⟨c, rfl⟩
  have hge : (mkMatcher leaves).fullNormalizedText.get? (i + (nt.length - 1)) = some ce := by
    have h1 : ((mkMatcher leaves).fullNormalizedText.drop i).get? (nt.length - 1)
        = nt.get? (nt.length - 1) := prefix_get? hpre (by omega)
    rw [List.get?_drop] at h1
    rw [h1, List.get?_eq_getElem?, ← List.getLast?_eq_getElem?]
    exact hce
  have hsegE : ∃ seg ∈ buildMapGo leaves 0,
      seg.startOffset ≤ i + (nt.length - 1) ∧ i + (nt.length - 1) < seg.endOffset := by
    have := fullOf_pos_class (buildMapGo leaves 0) 0 (i + (nt.length - 1)) hch
      (by rw [← hfull]; omega)
    rcases this with ⟨seg, hm, h1, h2⟩ | hsp
    · exact ⟨seg, hm, by omega, by omega⟩
    · rw [← hfull, hge] at hsp
      have : ce = ' ' := by simpa using hsp
      subst this
      exact absurd (hlast _ hce) (by simp [isWs_space])
  obtain ⟨segS, hmS, hS1, hS2⟩ := hsegS
  obtain ⟨segE, hmE, hE1, hE2⟩ := hsegE
  have hfS := findNodeAtPosition_some leaves i segS hmS hS1 hS2
  have hfE := findNodeAtPosition_some leaves (i + (nt.length - 1)) segE hmE hE1 hE2
  have hbE := segsChained_bounds _ _ hch segE hmE
  have hrelE : i + (nt.length - 1) - segE.startOffset < segE.normalizedText.length := by
    omega
  have hnormE : normalizeText (lookupRaw leaves segE.node) = segE.normalizedText :=
    buildMap_lookup_norm hnd hmE
  have hdE : denormalizeOffset (lookupRaw leaves segE.node)
      (i + (nt.length - 1) - segE.startOffset) < (lookupRaw leaves segE.node).length :=
    denormalizeOffset_lt (by rw [hnormE]; exact hrelE)
  have hidx : i + nt.length - 1 = i + (nt.length - 1) := by omega
  have hfE' : findNodeAtPosition (mkMatcher leaves) (i + nt.length - 1)
      = some { node := segE.node,
               offset := min (denormalizeOffset (lookupRaw leaves segE.node)
                   (i + (nt.length - 1) - segE.startOffset))
                 (lookupRaw leaves segE.node).length } := by
    rw [hidx]
    exact hfE
  rw [createDOMRange_some_some (mkMatcher leaves) i (i + nt.length) _ _ hfS hfE']
  have hml : (mkMatcher leaves).leaves = leaves := rfl
  rw [hml]
  dsimp only
  split
  · rfl
  · rename_i hcond
    exact absurd ⟨Nat.min_le_right _ _, by omega⟩ hcond

/-! ## The exact-search loop reports every occurrence, in order -/

theorem indexOfGo_min (s t : Str) :
    ∀ (fuel i j k : Nat), indexOfGo s t fuel i = some j →
      i ≤ k → k < j → ¬ t.isPrefixOf (s.drop k) = true := by
  intro fuel
  induction fuel with
  | zero => intro i j k h; exact absurd h (by simp [indexOfGo])
  | succ n ih =>
    intro i j k h hik hkj
    unfold indexOfGo at h
    split at h
    · split at h
      · cases h
        omega
      · rename_i hle hpre
        by_cases hik2 : i = k
        · subst hik2
          exact fun hc => hpre hc
        · exact ih (i + 1) j k h (by omega) hkj
    · exact absurd h (by simp)

theorem indexOfGo_complete (s t : Str) :
    ∀ (fuel i j : Nat), s.length + 1 - i ≤ fuel → i ≤ j → j ≤ s.length →
      t.isPrefixOf (s.drop j) = true → (indexOfGo s t fuel i).isSome = true := by
  intro fuel
  induction fuel with
  | zero => intro i j hf hij hjl _; omega
  | succ n ih =>
    intro i j hf hij hjl hpre
    unfold indexOfGo
    rw [if_pos (by omega)]
    split
    · rfl
    · rename_i hnot
      have hij2 : i ≠ j := fun hc => hnot (hc ▸ hpre)
      exact ih (i + 1) j (by omega) (by omega) hjl hpre

theorem findMatchesGo_sound (full t : Str) :
    ∀ (fuel st j : Nat), j ∈ findMatchesGo full t fuel st →
      st ≤ j ∧ t.isPrefixOf (full.drop j) = true := by
  intro fuel
  induction fuel with
  | zero => intro st j h; simp [findMatchesGo] at h
  | succ n ih =>
    intro st j hmem
    unfold findMatchesGo at hmem
    split at hmem
    · simp at hmem
    · rename_i i h
      have hb := indexOfGo_some_bounds full t _ st i h
      rcases List.mem_cons.mp hmem with rfl | hmem
      · exact ⟨hb.1, hb.2.2⟩
      · have := ih (i + 1) j hmem
        exact ⟨by omega, this.2⟩

theorem findMatchesGo_complete (full t : Str) (hne : t ≠ []) :
    ∀ (fuel st j : Nat), full.length + 1 - st ≤ fuel → st ≤ j →
      t.isPrefixOf (full.drop j) = true → j ∈ findMatchesGo full t fuel st := by
  intro fuel
  induction fuel with
  | zero =>
    intro st j hf hsj hpre
    exfalso
    have hjlen : j ≤ full.length := by
      by_contra hc
      rw [List.drop_eq_nil_of_le (by omega)] at hpre
      exact hne (List.prefix_nil.mp (List.isPrefixOf_iff_prefix.mp hpre))
    omega
  | succ n ih =>
    intro st j hf hsj hpre
    have hjlen : j ≤ full.length := by
      by_contra hc
      rw [List.drop_eq_nil_of_le (by omega)] at hpre
      exact hne (List.prefix_nil.mp (List.isPrefixOf_iff_prefix.mp hpre))
    unfold findMatchesGo
    split
    · rename_i h
      have := indexOfGo_complete full t (full.length + 1 - st) st j (Nat.le_refl _) hsj
        hjlen hpre
      rw [show indexOfFrom full t st = indexOfGo full t (full.length + 1 - st) st from rfl]
        at h
      rw [h] at this
      simp at this
    · rename_i i h
      have hb := indexOfGo_some_bounds full t _ st i h
      by_cases hij : j = i
      · subst hij
        exact List.mem_cons_self _ _
      · have hji : i < j := by
          by_contra hc
          exact indexOfGo_min full t _ st i j h hsj (by omega) hpre
        exact List.mem_cons_of_mem _ (ih (i + 1) j (by omega) (by omega) hpre)

theorem findMatchesGo_sorted (full t : Str) :
    ∀ (fuel st : Nat), (findMatchesGo full t fuel st).Pairwise (fun a b => a < b) := by
  intro fuel
  induction fuel with
  | zero => intro st; simp [findMatchesGo]
  | succ n ih =>
    intro st
    unfold findMatchesGo
    split
    · exact List.Pairwise.nil
    · rename_i i h
      refine List.Pairwise.cons ?_ (ih (i + 1))
      intro j hj
      have := findMatchesGo_sound full t n (i + 1) j hj
      omega

theorem findMatchesFrom_sound (full t : Str) (st j : Nat)
    (h : j ∈ findMatchesFrom full t st) :
    st ≤ j ∧ t.isPrefixOf (full.drop j) = true :=
  findMatchesGo_sound full t _ st j h

theorem findMatchesFrom_complete (full t : Str) (hne : t ≠ []) (st j : Nat)
    (hsj : st ≤ j) (hpre : t.isPrefixOf (full.drop j) = true) :
    j ∈ findMatchesFrom full t st :=
  findMatchesGo_complete full t hne _ st j (Nat.le_refl _) hsj hpre

theorem findMatchesFrom_sorted (full t : Str) (st : Nat) :
    (findMatchesFrom full t st).Pairwise (fun a b => a < b) :=
  findMatchesGo_sorted full t _ st

/-! ## Shared helper lemmas for the claim theorems -/

theorem normalizeText_head?_not_ws {cs : Str} {c : Char}
    (h : (normalizeText cs).head? = some c) : isWs c = false :=
  trimChars_head?_not_ws h

theorem normalizeText_getLast?_not_ws {cs : Str} {c : Char}
    (h : (normalizeText cs).getLast? = some c) : isWs c = false :=
  trimChars_getLast?_not_ws h

theorem length_filterMap_of_isSome {A B : Type} (f : A → Option B) :
    ∀ l : List A, (∀ a ∈ l, (f a).isSome = true) → (l.filterMap f).length = l.length := by
  intro l
  induction l with
  | nil => intro _; rfl
  | cons a rest ih =>
    intro h
    rw [List.filterMap_cons]
    cases hfa : f a with
    | none =>
      have := h a (List.mem_cons_self _ _)
      rw [hfa] at this
      exact absurd this (by simp)
    | some b => simp [ih (fun x hx => h x (List.mem_cons_of_mem _ hx))]

theorem segsChained_pairwise {α : Type} :
    ∀ (segs : List (TextPositionMap α)) (off : Nat), segsChained off segs →
      segs.Pairwise (fun a b => a.endOffset < b.startOffset) := by
  intro segs
  induction segs with
  | nil => intro off _; exact List.Pairwise.nil
  | cons s rest ih =>
    intro off hch
    obtain ⟨h1, h2, h3, h4⟩ := hch
    refine List.Pairwise.cons ?_ (ih _ h4)
    intro b hb
    have := (segsChained_bounds _ _ h4 b hb).1
    omega

theorem findNodeAtPosGo_offset_le {α : Type} [DecidableEq α] (leaves : List (α × Str)) :
    ∀ (segs : List (TextPositionMap α)) (off p : Nat) (loc : NodeLocation α),
      findNodeAtPosGo leaves segs off p = some loc →
      loc.offset ≤ (lookupRaw leaves loc.node).length := by
  intro segs
  induction segs with
  | nil => intro off p loc h; exact absurd h (by simp [findNodeAtPosGo])
  | cons s rest ih =>
    intro off p loc h
    unfold findNodeAtPosGo at h
    dsimp only at h
    split at h
    · cases h
      exact Nat.min_le_right _ _
    · exact ih _ _ _ h

theorem findTextRanges_eq_filterMap {α : Type} [DecidableEq α] (leaves : List (α × Str))
    (target : Str) (hne : normalizeText target ≠ []) :
    findTextRanges (mkMatcher leaves) target =
      (findMatchesFrom (mkMatcher leaves).fullNormalizedText (normalizeText target) 0).filterMap
        (fun i => createDOMRange (mkMatcher leaves) i (i + (normalizeText target).length)) := by
  unfold findTextRanges
  rw [if_neg (by simp [List.length_eq_zero, hne])]

theorem findTextRanges_length {α : Type} [DecidableEq α] (leaves : List (α × Str))
    (target : Str) (hnd : (leaves.map Prod.fst).Nodup)
    (hne : normalizeText target ≠ []) :
    (findTextRanges (mkMatcher leaves) target).length =
      (findMatchesFrom (mkMatcher leaves).fullNormalizedText (normalizeText target) 0).length := by
  rw [findTextRanges_eq_filterMap leaves target hne]
  apply length_filterMap_of_isSome
  intro i hi
  have hpre := (findMatchesFrom_sound _ _ _ _ hi).2
  exact createDOMRange_isSome hnd (List.isPrefixOf_iff_prefix.mp hpre)
    (fun c hc => normalizeText_head?_not_ws hc)
    (fun c hc => normalizeText_getLast?_not_ws hc) hne

/-! ## Claim C9 -/

/-- **C9** (confirmed).  After the index is built, the segment list satisfies:
segments appear in document order with strictly increasing offsets, each
spanning exactly its normalized text's length and separated from its
successor by exactly one gap position (`segsChained 0`, plus the pairwise
ordering it implies); each segment's normalized text equals `normalizeText`
of its node's raw text; and the concatenated normalized string restricted to
a segment's offset range equals that segment's normalized text. -/
theorem c9_index_invariants {α : Type} (leaves : List (α × Str)) :
    segsChained 0 (mkMatcher leaves).textPositionMap ∧
    (mkMatcher leaves).textPositionMap.Pairwise (fun a b => a.endOffset < b.startOffset) ∧
    (∀ seg ∈ (mkMatcher leaves).textPositionMap,
      ∃ raw, (seg.node, raw) ∈ leaves ∧ seg.normalizedText = normalizeText raw) ∧
    (∀ seg ∈ (mkMatcher leaves).textPositionMap,
      ((mkMatcher leaves).fullNormalizedText.drop seg.startOffset).take
        seg.normalizedText.length = seg.normalizedText) := by
  refine ⟨buildMapGo_chained leaves 0,
    segsChained_pairwise _ 0 (buildMapGo_chained leaves 0),
    fun seg h => buildMapGo_norm_from_leaf leaves 0 seg h, ?_⟩
  intro seg h
  have := fullOf_restrict _ 0 (buildMapGo_chained leaves 0) seg h
  rw [Nat.sub_zero] at this
  exact this

/-- Witness for C9 at the concrete document ["ab", " c  d "]: the chain
invariant holds and the slice of "ab c d" at the second segment's range
[3, 6) is its normalized text "c d". -/
theorem c9_witness :
    segsChained 0 (mkMatcher [(0, str "ab"), (1, str " c  d ")]).textPositionMap ∧
    ((mkMatcher [(0, str "ab"), (1, str " c  d ")]).fullNormalizedText.drop 3).take 3
      = str "c d" := by
  have h := c9_index_invariants [(0, str "ab"), (1, str " c  d ")]
  refine ⟨h.1, ?_⟩
  exact h.2.2.2 { node := 1, startOffset := 3, endOffset := 6, normalizedText := str "c d" }
    (by decide)

/-! ## Claim C10 -/

/-- **C10** (confirmed).  For every query whose normalization is empty (empty
or whitespace-only text), `findTextRanges` returns the empty list: the empty
normalized target is rejected up front and never searched for. -/
theorem c10_empty_normalized_query {α : Type} [DecidableEq α]
    (leaves : List (α × Str)) (q : Str) (h : normalizeText q = []) :
    findTextRanges (mkMatcher leaves) q = [] := by
  unfold findTextRanges
  rw [h]
  rfl

/-- Witness for C10: a whitespace-only query on a concrete document. -/
theorem c10_witness :
    normalizeText (str "   ") = [] ∧
    findTextRanges (mkMatcher [(0, str "ab")]) (str "   ") = [] :=
  ⟨by decide, c10_empty_normalized_query [(0, str "ab")] (str "   ") (by decide)⟩

/-! ## Claim C5 -/

/-- **C5 counterexample**: in the document with text nodes "ab" and "cd" the
concatenated normalized text is "ab cd" (length 5), so offset 2 is in range
of the normalized coordinate space; yet `findNodeAtPosition` returns `none`
there, because offset 2 is the separator position between the two segments.
This refutes "fails only when the offset is out of range". -/
theorem c5_counterexample :
    2 < (mkMatcher [(0, str "ab"), (1, str "cd")]).fullNormalizedText.length ∧
    findNodeAtPosition (mkMatcher [(0, str "ab"), (1, str "cd")]) 2 = none := by
  decide

/-- **C5** (corrected).  `findNodeAtPosition` fails exactly when the offset
lies inside no segment's `[startOffset, endOffset)` window — that is, when it
is out of range of the concatenated text or addresses one of the separator
positions between segments.  For every offset inside a segment's window it
returns that segment's node together with the denormalized raw offset clamped
to the node's text length. -/
theorem c5_findNodeAtPosition_characterization {α : Type} [DecidableEq α]
    (leaves : List (α × Str)) (p : Nat) :
    ((∀ seg ∈ (mkMatcher leaves).textPositionMap,
        ¬(seg.startOffset ≤ p ∧ p < seg.endOffset)) →
      findNodeAtPosition (mkMatcher leaves) p = none) ∧
    ((mkMatcher leaves).fullNormalizedText.length ≤ p →
      findNodeAtPosition (mkMatcher leaves) p = none) ∧
    (∀ seg ∈ (mkMatcher leaves).textPositionMap, seg.startOffset ≤ p → p < seg.endOffset →
      findNodeAtPosition (mkMatcher leaves) p =
        some { node := seg.node,
               offset := min (denormalizeOffset (lookupRaw leaves seg.node)
                   (p - seg.startOffset)) (lookupRaw leaves seg.node).length }) ∧
    (∀ loc, findNodeAtPosition (mkMatcher leaves) p = some loc →
      loc.offset ≤ (lookupRaw leaves loc.node).length) := by
  refine ⟨findNodeAtPosition_none leaves p, ?_,
    fun seg hm h1 h2 => findNodeAtPosition_some leaves p seg hm h1 h2,
    fun loc h => findNodeAtPosGo_offset_le leaves _ 0 p loc h⟩
  intro hp
  apply findNodeAtPosition_none leaves p
  intro seg hm
  have hb := fullOf_length_bound _ 0 (buildMapGo_chained leaves 0) seg hm
  have hfull : (mkMatcher leaves).fullNormalizedText = fullOf (buildMapGo leaves 0) := rfl
  rw [hfull] at hp
  omega

/-- Witness for C5 (amended): offset 3 lies inside the second segment of
["ab", "cd"] and resolves to that node at raw offset 0. -/
theorem c5_witness :
    findNodeAtPosition (mkMatcher [(0, str "ab"), (1, str "cd")]) 3
      = some { node := 1, offset := 0 } := by
  have h := (c5_findNodeAtPosition_characterization [(0, str "ab"), (1, str "cd")] 3).2.2.1
    { node := 1, startOffset := 3, endOffset := 5, normalizedText := str "cd" }
    (by decide) (by decide) (by decide)
  rw [h]
  decide

/-! ## Claim C8 -/

/-- **C8** (confirmed).  Exact search in `findTextRanges` reports every
occurrence of the normalized query in the concatenated normalized text: the
cursor loop enumerates exactly the set of occurrence positions (so
overlapping occurrences are each reported, none deduplicated), in strictly
increasing order, and — because range creation never fails for a trimmed
non-empty target — the returned range list has one entry per occurrence, in
that same order. -/
theorem c8_all_occurrences_in_order {α : Type} [DecidableEq α] (leaves : List (α × Str))
    (target : Str) (hnd : (leaves.map Prod.fst).Nodup)
    (hne : normalizeText target ≠ []) :
    (∀ i, i ∈ findMatchesFrom (mkMatcher leaves).fullNormalizedText
        (normalizeText target) 0 ↔
      (normalizeText target).isPrefixOf
        ((mkMatcher leaves).fullNormalizedText.drop i) = true) ∧
    (findMatchesFrom (mkMatcher leaves).fullNormalizedText
      (normalizeText target) 0).Pairwise (fun a b => a < b) ∧
    findTextRanges (mkMatcher leaves) target =
      (findMatchesFrom (mkMatcher leaves).fullNormalizedText
        (normalizeText target) 0).filterMap
        (fun i => createDOMRange (mkMatcher leaves) i (i + (normalizeText target).length)) ∧
    (findTextRanges (mkMatcher leaves) target).length =
      (findMatchesFrom (mkMatcher leaves).fullNormalizedText
        (normalizeText target) 0).length := by
  refine ⟨?_, findMatchesFrom_sorted _ _ 0,
    findTextRanges_eq_filterMap leaves target hne,
    findTextRanges_length leaves target hnd hne⟩
  intro i
  constructor
  · intro hmem
    exact (findMatchesFrom_sound _ _ 0 i hmem).2
  · intro hpre
    exact findMatchesFrom_complete _ _ hne 0 i (Nat.zero_le _) hpre

/-- Witness for C8: in the document ["aaaa"] the query "aa" occurs at the
overlapping positions 0, 1 and 2, and three ranges are reported. -/
theorem c8_witness :
    (findTextRanges (mkMatcher [(0, str "aaaa")]) (str "aa")).length =
      (findMatchesFrom (mkMatcher [(0, str "aaaa")]).fullNormalizedText
        (normalizeText (str "aa")) 0).length ∧
    findMatchesFrom (mkMatcher [(0, str "aaaa")]).fullNormalizedText
      (normalizeText (str "aa")) 0 = [0, 1, 2] :=
  ⟨(c8_all_occurrences_in_order [(0, str "aaaa")] (str "aa")
      (by decide) (by decide)).2.2.2, by decide⟩

/-! ## Claim C1 -/

/-- **C1 counterexample**: in the document with the single text node "a  b"
(two spaces) the normalized text is "a b", so S = "a b" is an exact substring
of the normalized rendered text; `findTextRanges` does return one match, but
the materialized range captures the raw text "a  " whose normalization "a"
differs from normalize(S) = "a b": denormalization points the right boundary
into the middle of the whitespace run. -/
theorem c1_counterexample :
    (normalizeText (str "a b")).isPrefixOf
      ((mkMatcher [(0, str "a  b")]).fullNormalizedText.drop 0) = true ∧
    (findTextRanges (mkMatcher [(0, str "a  b")]) (str "a b")).map
      (fun r => r.normalizedText) = [str "a"] ∧
    normalizeText (str "a b") ≠ str "a" := by
  refine ⟨by decide, by decide, by decide⟩

/-- **C1** (corrected).  For any string S whose normalization is a non-empty
exact substring of the document's concatenated normalized text,
`findTextRanges(S)` returns at least one match (range creation cannot fail
for a trimmed non-empty target); the stronger original statement — that each
returned match's materialized text normalizes back to normalize(S) — does not
hold in general, because `denormalizeOffset` misplaces boundaries inside raw
whitespace runs. -/
theorem c1_at_least_one_match {α : Type} [DecidableEq α] (leaves : List (α × Str))
    (target : Str) (hnd : (leaves.map Prod.fst).Nodup)
    (hne : normalizeText target ≠ [])
    (hocc : ∃ i, (normalizeText target).isPrefixOf
      ((mkMatcher leaves).fullNormalizedText.drop i) = true) :
    1 ≤ (findTextRanges (mkMatcher leaves) target).length := by
  obtain ⟨i, hi⟩ := hocc
  have hmem := findMatchesFrom_complete _ _ hne 0 i (Nat.zero_le _) hi
  have hlen := findTextRanges_length leaves target hnd hne
  rw [hlen]
  cases hcase : findMatchesFrom (mkMatcher leaves).fullNormalizedText
      (normalizeText target) 0 with
  | nil => rw [hcase] at hmem; simp at hmem
  | cons a rest => simp

/-- Witness for C1 (amended): "world" occurs in the document
["hello world"] and one range is returned. -/
theorem c1_witness :
    1 ≤ (findTextRanges (mkMatcher [(0, str "hello world")]) (str "world")).length :=
  c1_at_least_one_match [(0, str "hello world")] (str "world") (by decide) (by decide)
    ⟨6, by decide⟩

/-! ## Claims C6 and C7: the fuzzy fallback -/

theorem findFuzzyTextRanges_empty_of_short {α : Type} [DecidableEq α] (m : TextMatcher α)
    (q : Str) (θ : ℚ) (h10 : (normalizeText q).length < 10) :
    findFuzzyTextRanges m q θ = [] := by
  unfold findFuzzyTextRanges
  rw [if_pos h10]

theorem findFuzzyTextRanges_empty_of_few_words {α : Type} [DecidableEq α]
    (m : TextMatcher α) (q : Str) (θ : ℚ)
    (h3 : (splitSpace (normalizeText q)).length < 3) :
    findFuzzyTextRanges m q θ = [] := by
  unfold findFuzzyTextRanges
  by_cases h10 : (normalizeText q).length < 10
  · rw [if_pos h10]
  · rw [if_neg h10, if_pos h3]

theorem findFuzzyTextRanges_eq_filterMap {α : Type} [DecidableEq α] (m : TextMatcher α)
    (q : Str) (θ : ℚ)
    (h10 : ¬(normalizeText q).length < 10)
    (h3 : ¬(splitSpace (normalizeText q)).length < 3) :
    findFuzzyTextRanges m q θ =
      (List.range ((splitSpace m.fullNormalizedText).length + 1
          - min ((splitSpace (normalizeText q)).length * 2) 20)).filterMap (fun i =>
        if θ ≤ calculateSimilarity (normalizeText q)
            (joinSpace (((splitSpace m.fullNormalizedText).drop i).take
              (min ((splitSpace (normalizeText q)).length * 2) 20))) then
          createDOMRange m
            ((joinSpace ((splitSpace m.fullNormalizedText).take i)).length)
            ((joinSpace ((splitSpace m.fullNormalizedText).take i)).length
              + (joinSpace (((splitSpace m.fullNormalizedText).drop i).take
                (min ((splitSpace (normalizeText q)).length * 2) 20))).length)
        else none) := by
  unfold findFuzzyTextRanges
  rw [if_neg h10, if_neg h3]

theorem findFuzzyTextRanges_mem_unpack {α : Type} [DecidableEq α] (m : TextMatcher α)
    (q : Str) (θ : ℚ) (r : DOMRange α) (h : r ∈ findFuzzyTextRanges m q θ) :
    ∃ i, i < (splitSpace m.fullNormalizedText).length + 1
          - min ((splitSpace (normalizeText q)).length * 2) 20 ∧
      θ ≤ calculateSimilarity (normalizeText q)
        (joinSpace (((splitSpace m.fullNormalizedText).drop i).take
          (min ((splitSpace (normalizeText q)).length * 2) 20))) ∧
      createDOMRange m
        ((joinSpace ((splitSpace m.fullNormalizedText).take i)).length)
        ((joinSpace ((splitSpace m.fullNormalizedText).take i)).length
          + (joinSpace (((splitSpace m.fullNormalizedText).drop i).take
            (min ((splitSpace (normalizeText q)).length * 2) 20))).length) = some r := by
  by_cases h10 : (normalizeText q).length < 10
  · rw [findFuzzyTextRanges_empty_of_short m q θ h10] at h
    simp at h
  · by_cases h3 : (splitSpace (normalizeText q)).length < 3
    · rw [findFuzzyTextRanges_empty_of_few_words m q θ h3] at h
      simp at h
    · rw [findFuzzyTextRanges_eq_filterMap m q θ h10 h3, List.mem_filterMap] at h
      obtain ⟨i, hi, hf⟩ := h
      rw [List.mem_range] at hi
      split at hf
      · exact ⟨i, hi, by assumption, hf⟩
      · exact absurd hf (by simp)

theorem findFuzzyTextRanges_mem_pack {α : Type} [DecidableEq α] (m : TextMatcher α)
    (q : Str) (θ : ℚ) (r : DOMRange α)
    (h10 : ¬(normalizeText q).length < 10)
    (h3 : ¬(splitSpace (normalizeText q)).length < 3)
    (h : ∃ i, i < (splitSpace m.fullNormalizedText).length + 1
          - min ((splitSpace (normalizeText q)).length * 2) 20 ∧
      θ ≤ calculateSimilarity (normalizeText q)
        (joinSpace (((splitSpace m.fullNormalizedText).drop i).take
          (min ((splitSpace (normalizeText q)).length * 2) 20))) ∧
      createDOMRange m
        ((joinSpace ((splitSpace m.fullNormalizedText).take i)).length)
        ((joinSpace ((splitSpace m.fullNormalizedText).take i)).length
          + (joinSpace (((splitSpace m.fullNormalizedText).drop i).take
            (min ((splitSpace (normalizeText q)).length * 2) 20))).length) = some r) :
    r ∈ findFuzzyTextRanges m q θ := by
  obtain ⟨i, hi, hsim, hcr⟩ := h
  rw [findFuzzyTextRanges_eq_filterMap m q θ h10 h3, List.mem_filterMap]
  refine ⟨i, List.mem_range.mpr hi, ?_⟩
  dsimp only
  rw [if_pos hsim]
  exact hcr

/-- **C6** (confirmed).  The fuzzy guards and window: `findFuzzyTextRanges`
returns nothing unless the normalized query has at least 10 characters and at
least 3 words; the range-selection step of `highlightManipulation` consults
the fuzzy matcher (at threshold 0.7) exactly when exact matching returned
zero ranges; and every emitted fuzzy range arises from a sliding window of
exactly `min(2 × queryWordCount, 20)` consecutive words of the concatenated
text. -/
theorem c6_fuzzy_guards_and_window {α : Type} [DecidableEq α] (m : TextMatcher α)
    (q : Str) (θ : ℚ) :
    ((normalizeText q).length < 10 → findFuzzyTextRanges m q θ = []) ∧
    ((splitSpace (normalizeText q)).length < 3 → findFuzzyTextRanges m q θ = []) ∧
    (findTextRanges m q ≠ [] → rangesForManipulation m q = findTextRanges m q) ∧
    (findTextRanges m q = [] →
      rangesForManipulation m q = findFuzzyTextRanges m q fuzzyThresholdUsed) ∧
    (∀ r ∈ findFuzzyTextRanges m q θ, ∃ i,
      (((splitSpace m.fullNormalizedText).drop i).take
          (min ((splitSpace (normalizeText q)).length * 2) 20)).length
        = min ((splitSpace (normalizeText q)).length * 2) 20 ∧
      createDOMRange m
        ((joinSpace ((splitSpace m.fullNormalizedText).take i)).length)
        ((joinSpace ((splitSpace m.fullNormalizedText).take i)).length
          + (joinSpace (((splitSpace m.fullNormalizedText).drop i).take
            (min ((splitSpace (normalizeText q)).length * 2) 20))).length) = some r) := by
  refine ⟨findFuzzyTextRanges_empty_of_short m q θ,
    findFuzzyTextRanges_empty_of_few_words m q θ, ?_, ?_, ?_⟩
  · intro h
    unfold rangesForManipulation
    rw [if_neg h]
  · intro h
    unfold rangesForManipulation
    rw [if_pos h]
  · intro r hr
    obtain ⟨i, hi, _, hcr⟩ := findFuzzyTextRanges_mem_unpack m q θ r hr
    refine ⟨i, ?_, hcr⟩
    rw [List.length_take, List.length_drop]
    omega

/-- Witness for C6: a 5-character query is rejected by the fuzzy guard, and
for a query with an exact hit the range-selection step returns the exact
ranges. -/
theorem c6_witness :
    findFuzzyTextRanges (mkMatcher [(0, str "hello")]) (str "ab cd") fuzzyThresholdUsed
      = [] ∧
    rangesForManipulation (mkMatcher [(0, str "hello")]) (str "hello")
      = findTextRanges (mkMatcher [(0, str "hello")]) (str "hello") :=
  ⟨(c6_fuzzy_guards_and_window (mkMatcher [(0, str "hello")]) (str "ab cd")
      fuzzyThresholdUsed).1 (by decide),
   (c6_fuzzy_guards_and_window (mkMatcher [(0, str "hello")]) (str "hello")
      fuzzyThresholdUsed).2.2.1 (by decide)⟩

/-- **C7 counterexample**: the declared default of the fuzzy similarity
threshold parameter is 0.8, not 0.7 — `findFuzzyTextRanges(targetText,
threshold: number = 0.8)`; the 0.7 value is passed explicitly at the one call
site in the pipeline. -/
theorem c7_counterexample :
    fuzzyThresholdDefault = 8 / 10 ∧ fuzzyThresholdDefault ≠ 7 / 10 :=
  ⟨rfl, by unfold fuzzyThresholdDefault; norm_num⟩

theorem calculateSimilarity_boundary_7_10 :
    calculateSimilarity (str "a b c d e f g h i j")
      (str "a b c d e f g a b c d e f g a b c d e f") = 7 / 10 := by
  simp only [calculateSimilarity]
  have h1 : ((splitSpace ((str "a b c d e f g h i j").map Char.toLower)).dedup.filter
      (fun w => decide (w ∈ (splitSpace ((str "a b c d e f g a b c d e f g a b c d e f").map
        Char.toLower)).dedup))).length = 7 := by decide
  have h2 : (((splitSpace ((str "a b c d e f g h i j").map Char.toLower)).dedup
      ++ (splitSpace ((str "a b c d e f g a b c d e f g a b c d e f").map
        Char.toLower)).dedup).dedup).length = 10 := by decide
  rw [h1, h2]
  norm_num

theorem calculateSimilarity_below_1_2 :
    calculateSimilarity (str "a b c") (str "a b x") = 1 / 2 := by
  simp only [calculateSimilarity]
  have h1 : ((splitSpace ((str "a b c").map Char.toLower)).dedup.filter
      (fun w => decide (w ∈ (splitSpace ((str "a b x").map Char.toLower)).dedup))).length
        = 2 := by decide
  have h2 : (((splitSpace ((str "a b c").map Char.toLower)).dedup
      ++ (splitSpace ((str "a b x").map Char.toLower)).dedup).dedup).length = 4 := by
    decide
  rw [h1, h2]
  norm_num

/-- **C7** (corrected).  The function's declared threshold default is 0.8 and
the pipeline invokes fuzzy matching with 0.7; a window is emitted as an
approximate match exactly when its word-set Jaccard similarity to the query
reaches the given threshold AND its range creation succeeds; a window with
similarity exactly 0.70 passes the pipeline threshold (witnessed by a
concrete word-window of similarity exactly 7/10), while a window below it is
rejected (witnessed by a concrete pair of similarity 1/2). -/
theorem c7_threshold_and_emission :
    fuzzyThresholdDefault = 8 / 10 ∧ fuzzyThresholdUsed = 7 / 10 ∧
    (∀ {α : Type} [DecidableEq α] (m : TextMatcher α) (q : Str) (θ : ℚ)
      (r : DOMRange α),
      r ∈ findFuzzyTextRanges m q θ ↔
        (¬(normalizeText q).length < 10 ∧ ¬(splitSpace (normalizeText q)).length < 3 ∧
          ∃ i, i < (splitSpace m.fullNormalizedText).length + 1
                - min ((splitSpace (normalizeText q)).length * 2) 20 ∧
            θ ≤ calculateSimilarity (normalizeText q)
              (joinSpace (((splitSpace m.fullNormalizedText).drop i).take
                (min ((splitSpace (normalizeText q)).length * 2) 20))) ∧
            createDOMRange m
              ((joinSpace ((splitSpace m.fullNormalizedText).take i)).length)
              ((joinSpace ((splitSpace m.fullNormalizedText).take i)).length
                + (joinSpace (((splitSpace m.fullNormalizedText).drop i).take
                  (min ((splitSpace (normalizeText q)).length * 2) 20))).length)
              = some r)) ∧
    calculateSimilarity (str "a b c d e f g h i j")
      (str "a b c d e f g a b c d e f g a b c d e f") = 7 / 10 ∧
    fuzzyThresholdUsed ≤ 7 / 10 ∧
    calculateSimilarity (str "a b c") (str "a b x") = 1 / 2 ∧
    ¬ fuzzyThresholdUsed ≤ 1 / 2 := by
  refine ⟨rfl, rfl, ?_, calculateSimilarity_boundary_7_10,
    by norm_num [fuzzyThresholdUsed], calculateSimilarity_below_1_2,
    by norm_num [fuzzyThresholdUsed]⟩
  intro α inst m q θ r
  constructor
  · intro h
    have h10 : ¬(normalizeText q).length < 10 := by
      intro hc
      rw [findFuzzyTextRanges_empty_of_short m q θ hc] at h
      simp at h
    have h3 : ¬(splitSpace (normalizeText q)).length < 3 := by
      intro hc
      rw [findFuzzyTextRanges_empty_of_few_words m q θ hc] at h
      simp at h
    exact ⟨h10, h3, findFuzzyTextRanges_mem_unpack m q θ r h⟩
  · rintro ⟨h10, h3, hex⟩
    exact findFuzzyTextRanges_mem_pack m q θ r h10 h3 hex

/-- Witness for C7 (amended): the concrete boundary window's similarity is
accepted at the pipeline threshold. -/
theorem c7_witness :
    fuzzyThresholdUsed ≤ calculateSimilarity (str "a b c d e f g h i j")
      (str "a b c d e f g a b c d e f g a b c d e f") := by
  have h := c7_threshold_and_emission
  rw [h.2.2.2.1, h.2.1]

/-! ## The document tree model for src/content/text-highlighter.ts

A DOM subtree is an ordered tree of element nodes and text leaves.  An
element carries its (lowercased) tag name, its `class` attribute, and a
numeric identity `uid` standing for JavaScript object identity of the nodes
the highlighter creates and holds references to (clones receive uid 0 and
are never registered).  The cosmetic attributes a marker carries
(`data-manipulation-type`, description, confidence) and its event listeners
do not influence matching, overlap checking or teardown and are not
modelled. -/

inductive DomNode where
  | text (s : Str)
  | elem (tag : Str) (cls : Str) (uid : Nat) (children : List DomNode)

/-- A path of child indices addressing a node inside a tree. -/
abbrev Path := List Nat

mutual

/-- `Node.textContent`: concatenation of all text leaves of the subtree. -/
def textContent : DomNode → Str
  | DomNode.text s => s
  | DomNode.elem _ _ _ cs => textContentList cs

def textContentList : List DomNode → Str
  | [] => []
  | c :: rest => textContent c ++ textContentList rest

end

/-- Tag names whose text content the tree walker of `buildTextNodeMap`
rejects. -/
def skipTags : List Str := [str "script", str "style", str "noscript"]

mutual

/-- The `TreeWalker` of `buildTextNodeMap` over one node: visit text leaves
in document order, rejecting whitespace-only text and text whose immediate
parent element is a script/style/noscript. -/
def collectGo (parentTag : Str) (p : Path) : DomNode → List (Path × Str)
  | DomNode.text s =>
    if trimChars s = [] ∨ parentTag ∈ skipTags then [] else [(p, s)]
  | DomNode.elem tag _ _ cs => collectGoList tag p 0 cs

def collectGoList (tag : Str) (p : Path) (i : Nat) : List DomNode → List (Path × Str)
  | [] => []
  | c :: rest => collectGo tag (p ++ [i]) c ++ collectGoList tag p (i + 1) rest

end

/-- The walker run rooted at an element (`new TextMatcher(document.body)`):
it yields the accepted text descendants of the root, never the root itself. -/
def collectTextNodes : DomNode → List (Path × Str)
  | DomNode.text _ => []
  | DomNode.elem tag _ _ cs => collectGoList tag [] 0 cs

/-- Resolve a path to the node it addresses. -/
def getNode : DomNode → Path → Option DomNode
  | n, [] => some n
  | DomNode.text _, _ :: _ => none
  | DomNode.elem _ _ _ cs, i :: rest =>
    match cs.get? i with
    | some c => getNode c rest
    | none => none

/-- Replace the node at a path by the result of `f`, failing if the path
does not resolve or `f` rejects the node there. -/
def modifyAt : DomNode → Path → (DomNode → Option DomNode) → Option DomNode
  | n, [], f => f n
  | DomNode.text _, _ :: _, _ => none
  | DomNode.elem t c u cs, i :: rest, f =>
    match cs.get? i with
    | some child =>
      match modifyAt child rest f with
      | some child' => some (DomNode.elem t c u (cs.set i child'))
      | none => none
    | none => none

/-- The substring every highlight class contains
(`HIGHLIGHT_CLASS_PREFIX`); the overlap check selects on
`[class*="manipulation-highlight"]`. -/
def highlightMarkerCls : Str := str "manipulation-highlight"

/-- Does this node's class attribute match the highlight selector? -/
def isMarkerElem : DomNode → Bool
  | DomNode.text _ => false
  | DomNode.elem _ cls _ _ => decide (List.IsInfix highlightMarkerCls cls)

mutual

/-- `container.querySelector('[class*="manipulation-highlight"]') !== null`:
does any strict descendant carry the highlight class? -/
def hasMarkerDesc : DomNode → Bool
  | DomNode.text _ => false
  | DomNode.elem _ _ _ cs => hasMarkerDescList cs

def hasMarkerDescList : List DomNode → Bool
  | [] => false
  | c :: rest => isMarkerElem c || hasMarkerDesc c || hasMarkerDescList rest

end

/-- `element.closest('[class*="manipulation-highlight"]') !== null` for the
node at the given path: does any node from the root down to it (all its
inclusive ancestors) carry the highlight class? -/
def closestHasMarker : DomNode → Path → Bool
  | n, [] => isMarkerElem n
  | DomNode.text _, _ :: _ => false
  | DomNode.elem t cls u cs, i :: rest =>
    isMarkerElem (DomNode.elem t cls u cs) ||
      (match cs.get? i with
       | some c => closestHasMarker c rest
       | none => false)

/-- Longest common prefix of two paths: the address of
`range.commonAncestorContainer` for boundaries in two distinct text nodes. -/
def commonPrefix : Path → Path → Path
  | i :: p, j :: q => if i = j then i :: commonPrefix p q else []
  | _, _ => []

/-- `isRangeHighlighted` from text-highlighter.ts: when the common ancestor
container is the boundary text node itself (both boundaries in one node),
consult `parentElement.closest`; when it is an element, consult its
`querySelector` — looking downward only. -/
def isRangeHighlighted (root : DomNode) (sp ep : Path) : Bool :=
  if sp = ep then
    closestHasMarker root sp.dropLast
  else
    match getNode root (commonPrefix sp ep) with
    | some n => hasMarkerDesc n
    | none => false

/-- `getHighlightClass`:
`manipulation-highlight-<type> <mode> manipulation-highlight-base`. -/
def getHighlightCls (manipulationType : Str) (mode : Str) : Str :=
  highlightMarkerCls ++ str "-" ++ manipulationType ++ str " "
    ++ (if mode = str "low-contrast" then str "low-contrast" else str "full-color")
    ++ str " manipulation-highlight-base"

/-- The DOM exceptions the modelled operations can raise. -/
inductive DomErr where
  | invalidState
  | hierarchyRequest
  | indexSize
deriving Repr, DecidableEq

/-- `Range.surroundContents` when both boundaries lie in the same text node:
split the node and wrap the middle piece in the new span. -/
def wrapSameNode (root : DomNode) (sp : Path) (so eo : Nat) (cls : Str) (uid : Nat) :
    Except DomErr DomNode :=
  match sp.getLast? with
  | none => Except.error DomErr.hierarchyRequest
  | some k =>
    match modifyAt root sp.dropLast (fun parent =>
      match parent with
      | DomNode.elem t c u cs =>
        match cs.get? k with
        | some (DomNode.text s) =>
          if so ≤ eo ∧ eo ≤ s.length then
            some (DomNode.elem t c u (cs.take k
              ++ [DomNode.text (s.take so),
                  DomNode.elem (str "span") cls uid [DomNode.text ((s.take eo).drop so)],
                  DomNode.text (s.drop eo)]
              ++ cs.drop (k + 1)))
          else none
        | _ => none
      | DomNode.text _ => none) with
    | some root' => Except.ok root'
    | none => Except.error DomErr.indexSize

/-- `Range.surroundContents` when the two boundary text nodes are siblings
under one parent: split both boundary nodes, move the fully contained
siblings between them into the new span. -/
def wrapSameParent (root : DomNode) (sp : Path) (so : Nat) (ep : Path) (eo : Nat)
    (cls : Str) (uid : Nat) : Except DomErr DomNode :=
  match sp.getLast?, ep.getLast? with
  | some k1, some k2 =>
    if sp.dropLast = ep.dropLast ∧ k1 < k2 then
      match modifyAt root sp.dropLast (fun parent =>
        match parent with
        | DomNode.elem t c u cs =>
          match cs.get? k1, cs.get? k2 with
          | some (DomNode.text s1), some (DomNode.text s2) =>
            if so ≤ s1.length ∧ eo ≤ s2.length then
              some (DomNode.elem t c u (cs.take k1
                ++ [DomNode.text (s1.take so),
                    DomNode.elem (str "span") cls uid
                      ([DomNode.text (s1.drop so)]
                        ++ ((cs.drop (k1 + 1)).take (k2 - k1 - 1))
                        ++ [DomNode.text (s2.take eo)]),
                    DomNode.text (s2.drop eo)]
                ++ cs.drop (k2 + 1)))
            else none
          | _, _ => none
        | DomNode.text _ => none) with
      | some root' => Except.ok root'
      | none => Except.error DomErr.indexSize
    else Except.error DomErr.invalidState
  | _, _ => Except.error DomErr.hierarchyRequest

/-- `range.surroundContents(span)`: succeeds when no non-text node is
partially contained — both boundaries in one text node, or in two sibling
text nodes of one parent — and throws otherwise. -/
def surroundContents (root : DomNode) (sp : Path) (so : Nat) (ep : Path) (eo : Nat)
    (cls : Str) (uid : Nat) : Except DomErr DomNode :=
  if sp = ep then wrapSameNode root sp so eo cls uid
  else wrapSameParent root sp so ep eo cls uid

/-- The fallback `extractContents` / `appendChild` / `insertNode` sequence for
the structural configuration the primary wrap rejects: the start boundary's
text node lies one element deeper than the common ancestor (child `it` of
element `E` at index `jb`), the end boundary's text node is a direct child at
index `ke > jb`.  Following the DOM extract algorithm, the partially
contained `E` keeps its out-of-range part and a clone of `E` (uid 0 — clones
are new, unregistered objects) carries the in-range part into the new span,
which is inserted at the point of extraction.  Deeper configurations are
modelled as failures (MaterializeFailure). -/
def extractAndInsert (root : DomNode) (sp : Path) (so : Nat) (ep : Path) (eo : Nat)
    (cls : Str) (uid : Nat) : Except DomErr DomNode :=
  match ep.getLast? with
  | none => Except.error DomErr.hierarchyRequest
  | some ke =>
    let q := ep.dropLast
    if sp.length = q.length + 2 ∧ sp.take q.length = q then
      match sp.get? q.length, sp.get? (q.length + 1) with
      | some jb, some it =>
        if jb < ke then
          match modifyAt root q (fun parent =>
            match parent with
            | DomNode.elem tA cA uA cs =>
              match cs.get? jb, cs.get? ke with
              | some (DomNode.elem tE cE uE csE), some (DomNode.text s2) =>
                match csE.get? it with
                | some (DomNode.text s1) =>
                  if so ≤ s1.length ∧ eo ≤ s2.length then
                    some (DomNode.elem tA cA uA (cs.take jb
                      ++ [DomNode.elem tE cE uE
                            (csE.take it ++ [DomNode.text (s1.take so)]),
                          DomNode.elem (str "span") cls uid
                            ([DomNode.elem tE cE 0
                                ([DomNode.text (s1.drop so)] ++ csE.drop (it + 1))]
                              ++ ((cs.drop (jb + 1)).take (ke - jb - 1))
                              ++ [DomNode.text (s2.take eo)]),
                          DomNode.text (s2.drop eo)]
                      ++ cs.drop (ke + 1)))
                  else none
                | _ => none
              | _, _ => none
            | DomNode.text _ => none) with
          | some root' => Except.ok root'
          | none => Except.error DomErr.hierarchyRequest
        else Except.error DomErr.hierarchyRequest
      | _, _ => Except.error DomErr.hierarchyRequest
    else Except.error DomErr.hierarchyRequest

/-! ## The highlighter pipeline -/

/-- `ManipulationBlock` from src/shared/types.ts (the manipulation type is
one of the fixed literal values; it is kept as a string here since only its
embedding into the class attribute matters to the verified logic). -/
structure ManipulationBlock where
  original_text : Str
  manipulation_type : Str
  manipulation_description : Str
  confidence : ℚ

/-- The state a `TextHighlighter` instance holds: the document tree it works
on, the insertion-ordered ids of the `highlightedElements` map, the current
mode, the tooltip visibility (`TooltipManager` reduced to what
`hideTooltip()` touches), and the uid counter modelling the generation of
fresh element identities (`highlight-${index}-${rangeIndex}-${Date.now()}`
ids are modelled as successive uids). -/
structure TextHighlighter where
  doc : DomNode
  highlightedElements : List Nat
  currentMode : Str
  tooltipVisible : Bool
  nextUid : Nat

mutual

/-- Search the tree for the element with the given uid — dereferencing the
object handle the `highlightedElements` map holds.  `none` models a marker
whose node is no longer attached. -/
def findPathOfUid (uid : Nat) : DomNode → Option Path
  | DomNode.text _ => none
  | DomNode.elem _ _ u cs =>
    if u = uid then some [] else findPathOfUidList uid 0 cs

def findPathOfUidList (uid : Nat) (i : Nat) : List DomNode → Option Path
  | [] => none
  | c :: rest =>
    match findPathOfUid uid c with
    | some p => some (i :: p)
    | none => findPathOfUidList uid (i + 1) rest

end

/-- Merge adjacent text leaves and drop empty ones — the sibling-level step
of `Node.normalize()`. -/
def mergeTextNodes : List DomNode → List DomNode
  | [] => []
  | DomNode.text s :: rest =>
    if s = [] then mergeTextNodes rest
    else
      match mergeTextNodes rest with
      | DomNode.text s2 :: rest' => DomNode.text (s ++ s2) :: rest'
      | other => DomNode.text s :: other
  | c :: rest => c :: mergeTextNodes rest

mutual

/-- `Node.normalize()`: merge adjacent text nodes and remove empty ones in
the whole subtree. -/
def normalizeDom : DomNode → DomNode
  | DomNode.text s => DomNode.text s
  | DomNode.elem t c u cs => DomNode.elem t c u (mergeTextNodes (normalizeDomList cs))

def normalizeDomList : List DomNode → List DomNode
  | [] => []
  | c :: rest => normalizeDom c :: normalizeDomList rest

end

/-- One iteration of `clearHighlights`: move the marker's children out in
front of it, remove the marker node, and normalize the parent.  A marker no
longer found in the tree is skipped (the `parentNode` guard / the per-marker
`try`/`catch`). -/
def removeHighlight (doc : DomNode) (uid : Nat) : DomNode :=
  match findPathOfUid uid doc with
  | none => doc
  | some p =>
    match p.getLast? with
    | none => doc
    | some k =>
      match modifyAt doc p.dropLast (fun parent =>
        match parent with
        | DomNode.elem t c u cs =>
          match cs.get? k with
          | some (DomNode.elem _ _ _ gcs) =>
            some (normalizeDom (DomNode.elem t c u (cs.take k ++ gcs ++ cs.drop (k + 1))))
          | _ => none
        | DomNode.text _ => none) with
      | some doc' => doc'
      | none => doc

/-- `clearHighlights` from text-highlighter.ts: unwrap every recorded marker
in insertion order, clear the map, hide the tooltip. -/
def clearHighlights (st : TextHighlighter) : TextHighlighter :=
  { st with
    doc := st.highlightedElements.foldl removeHighlight st.doc
    highlightedElements := []
    tooltipVisible := false }

/-- `createHighlightElementAlternative`: the whole body is inside
`try`/`catch`; a failure of the extract-and-reinsert yields `null`. -/
def createHighlightElementAlternative (root : DomNode) (r : DOMRange Path)
    (cls : Str) (uid : Nat) : Except DomErr (Option DomNode) :=
  match extractAndInsert root r.startNode r.startOffset r.endNode r.endOffset cls uid with
  | Except.ok root' => Except.ok (some root')
  | Except.error _ => Except.ok none

/-- `createHighlightElement`: reject collapsed or already-highlighted ranges
(`null`), then try the primary wrap; on its exception fall back to the
alternative construction. -/
def createHighlightElement (root : DomNode) (r : DOMRange Path)
    (m : ManipulationBlock) (mode : Str) (uid : Nat) : Except DomErr (Option DomNode) :=
  let cls := getHighlightCls m.manipulation_type mode
  if (r.startNode = r.endNode ∧ r.startOffset = r.endOffset)
      ∨ isRangeHighlighted root r.startNode r.endNode then
    Except.ok none
  else
    match surroundContents root r.startNode r.startOffset r.endNode r.endOffset cls uid with
    | Except.ok root' => Except.ok (some root')
    | Except.error _ => createHighlightElementAlternative root r cls uid

/-- `highlightManipulation`: build a fresh `TextMatcher` over the live tree,
locate ranges (exact, else fuzzy at 0.7), and materialize each in turn,
recording each successfully created marker. -/
def highlightManipulation (st : TextHighlighter) (manipulation : ManipulationBlock) :
    Except DomErr TextHighlighter :=
  let textMatcher := mkMatcher (collectTextNodes st.doc)
  let ranges := rangesForManipulation textMatcher manipulation.original_text
  ranges.foldlM (fun st r => do
    let res ← createHighlightElement st.doc r manipulation st.currentMode st.nextUid
    match res with
    | some doc' =>
      pure { st with
        doc := doc',
        highlightedElements := st.highlightedElements ++ [st.nextUid],
        nextUid := st.nextUid + 1 }
    | none => pure st) st

/-- `highlightManipulations` (`applyAnnotations`): set the mode, clear any
existing markers, then process every manipulation in order. -/
def highlightManipulations (st : TextHighlighter) (manipulations : List ManipulationBlock)
    (mode : Str) : Except DomErr TextHighlighter :=
  let st := { st with currentMode := mode }
  let st := clearHighlights st
  manipulations.foldlM (fun st m => highlightManipulation st m) st

mutual

/-- The text-position intervals (in `textContent` coordinates) of every
marker element of the tree, in document order: the interval of a node at
text offset `off` spans its own text content. -/
def markerIntervals : DomNode → Nat → List (Nat × Nat)
  | DomNode.text _, _ => []
  | DomNode.elem _ cls _ cs, off =>
    (if decide (List.IsInfix highlightMarkerCls cls) then
      [(off, off + (textContentList cs).length)]
    else []) ++ markerIntervalsList cs off

def markerIntervalsList : List DomNode → Nat → List (Nat × Nat)
  | [], _ => []
  | c :: rest, off => markerIntervals c off ++ markerIntervalsList rest (off + (textContent c).length)

end

/-- Two half-open intervals share at least one position. -/
def intervalsOverlap (p q : Nat × Nat) : Prop := q.1 < p.2 ∧ p.1 < q.2

/-- A family of intervals is laminar when any two members are disjoint or
nested. -/
def Laminar (l : List (Nat × Nat)) : Prop :=
  ∀ p ∈ l, ∀ q ∈ l,
    p.2 ≤ q.1 ∨ q.2 ≤ p.1 ∨ (p.1 ≤ q.1 ∧ q.2 ≤ p.2) ∨ (q.1 ≤ p.1 ∧ p.2 ≤ q.2)

/-! ## Claim C4: no failure escapes applyAnnotations -/

theorem bind_ok {E A B : Type} (X : Except E A) (g : A → Except E B) (v : A)
    (h : X = Except.ok v) : (X >>= g) = g v := by
  rw [h]
  rfl

theorem foldlM_isOk {S A E : Type} (f : S → A → Except E S)
    (hf : ∀ s a, ∃ s', f s a = Except.ok s') :
    ∀ (l : List A) (st : S), ∃ s, l.foldlM f st = Except.ok s := by
  intro l
  induction l with
  | nil => intro st; exact ⟨st, rfl⟩
  | cons a rest ih =>
    intro st
    obtain ⟨s1, hs1⟩ := hf st a
    obtain ⟨s2, hs2⟩ := ih s1
    refine ⟨s2, ?_⟩
    rw [List.foldlM_cons, bind_ok _ _ _ hs1]
    exact hs2

theorem createHighlightElement_isOk (root : DomNode) (r : DOMRange Path)
    (m : ManipulationBlock) (mode : Str) (uid : Nat) :
    ∃ v, createHighlightElement root r m mode uid = Except.ok v := by
  simp only [createHighlightElement]
  split
  · exact ⟨none, rfl⟩
  · split
    · exact ⟨_, rfl⟩
    · unfold createHighlightElementAlternative
      split
      · exact ⟨_, rfl⟩
      · exact ⟨none, rfl⟩

theorem highlightManipulation_isOk (st : TextHighlighter) (m : ManipulationBlock) :
    ∃ s, highlightManipulation st m = Except.ok s := by
  unfold highlightManipulation
  apply foldlM_isOk
  intro s r
  obtain ⟨v, hv⟩ := createHighlightElement_isOk s.doc r m s.currentMode s.nextUid
  cases v with
  | none => exact ⟨s, by rw [bind_ok _ _ _ hv]; rfl⟩
  | some d => exact ⟨_, by rw [bind_ok _ _ _ hv]; rfl⟩

/-- **C4** (confirmed).  `highlightManipulations` (applyAnnotations) never
propagates a failure to the caller: every DOM operation that can throw sits
behind a catch, so for every state, list of spans and mode the operation
returns normally; and a span none of whose text could be located contributes
nothing — the pipeline continues with the state unchanged. -/
theorem c4_no_failure_propagates (st : TextHighlighter)
    (manipulations : List ManipulationBlock) (mode : Str) :
    (∃ s, highlightManipulations st manipulations mode = Except.ok s) ∧
    (∀ (st' : TextHighlighter) (m : ManipulationBlock),
      rangesForManipulation (mkMatcher (collectTextNodes st'.doc)) m.original_text = [] →
      highlightManipulation st' m = Except.ok st') := by
  constructor
  · unfold highlightManipulations
    exact foldlM_isOk _ (fun s m => highlightManipulation_isOk s m) manipulations _
  · intro st' m h
    simp only [highlightManipulation]
    rw [h]
    rfl

/-- Witness for C4: a span whose text occurs nowhere in the document (and is
too short for the fuzzy fallback) is dropped with the state unchanged. -/
theorem c4_witness :
    highlightManipulation
      { doc := DomNode.elem (str "body") (str "") 0 [DomNode.text (str "ab")],
        highlightedElements := [], currentMode := str "full-color",
        tooltipVisible := false, nextUid := 1 }
      { original_text := str "zz qq ww", manipulation_type := str "loaded_language",
        manipulation_description := str "d", confidence := 1 }
      = Except.ok
      { doc := DomNode.elem (str "body") (str "") 0 [DomNode.text (str "ab")],
        highlightedElements := [], currentMode := str "full-color",
        tooltipVisible := false, nextUid := 1 } :=
  (c4_no_failure_propagates
    { doc := DomNode.elem (str "body") (str "") 0 [DomNode.text (str "ab")],
      highlightedElements := [], currentMode := str "full-color",
      tooltipVisible := false, nextUid := 1 } [] (str "full-color")).2
    { doc := DomNode.elem (str "body") (str "") 0 [DomNode.text (str "ab")],
      highlightedElements := [], currentMode := str "full-color",
      tooltipVisible := false, nextUid := 1 }
    { original_text := str "zz qq ww", manipulation_type := str "loaded_language",
      manipulation_description := str "d", confidence := 1 }
    (by decide)

/-! ## Claim C3: every mutation preserves the document's text content -/

theorem textContentList_append : ∀ (a b : List DomNode),
    textContentList (a ++ b) = textContentList a ++ textContentList b := by
  intro a b
  induction a with
  | nil => rfl
  | cons c rest ih =>
    simp [textContentList, ih, List.append_assoc]

theorem textContentList_set : ∀ (cs : List DomNode) (i : Nat) (child child' : DomNode),
    cs.get? i = some child → textContent child' = textContent child →
    textContentList (cs.set i child') = textContentList cs := by
  intro cs
  induction cs with
  | nil => intro i c c' h _; simp at h
  | cons a rest ih =>
    intro i c c' h heq
    cases i with
    | zero =>
      rw [List.get?_cons_zero] at h
      cases h
      simp only [List.set_cons_zero, textContentList, heq]
    | succ n =>
      rw [List.get?_cons_succ] at h
      simp only [List.set_cons_succ, textContentList, ih n c c' h heq]

theorem modifyAt_textContent : ∀ (p : Path) (root : DomNode)
    (f : DomNode → Option DomNode) (root' : DomNode),
    (∀ n n', f n = some n' → textContent n' = textContent n) →
    modifyAt root p f = some root' → textContent root' = textContent root := by
  intro p
  induction p with
  | nil =>
    intro root f root' hf h
    rw [show modifyAt root [] f = f root from by cases root <;> rfl] at h
    exact hf root root' h
  | cons i rest ih =>
    intro root f root' hf h
    cases root with
    | text s => simp [modifyAt] at h
    | elem t c u cs =>
      simp only [modifyAt] at h
      split at h
      · rename_i child hget
        split at h
        · rename_i child' hmod
          cases h
          show textContent (DomNode.elem t c u (cs.set i child')) = _
          simp only [textContent]
          exact textContentList_set cs i child child' hget (ih child f child' hf hmod)
        · simp at h
      · simp at h

theorem list_decomp_get? {A : Type} : ∀ (l : List A) (i : Nat) (x : A),
    l.get? i = some x → l = l.take i ++ x :: l.drop (i + 1) := by
  intro l
  induction l with
  | nil => intro i x h; simp at h
  | cons a rest ih =>
    intro i x h
    cases i with
    | zero =>
      rw [List.get?_cons_zero] at h
      cases h
      simp
    | succ n =>
      rw [List.get?_cons_succ] at h
      rw [List.take_succ_cons, List.drop_succ_cons, List.cons_append]
      exact congrArg (fun l => a :: l) (ih n x h)

theorem take_mid_drop {A : Type} (l : List A) (a b : Nat) (h : a ≤ b) :
    l.take a ++ ((l.take b).drop a ++ l.drop b) = l := by
  rw [List.drop_take]
  have h2 : l.drop b = (l.drop a).drop (b - a) := by
    rw [List.drop_drop]
    congr 1
    omega
  rw [h2, List.take_append_drop, List.take_append_drop]

theorem wrapSameNode_textContent (root : DomNode) (sp : Path) (so eo : Nat)
    (cls : Str) (uid : Nat) (root' : DomNode)
    (h : wrapSameNode root sp so eo cls uid = Except.ok root') :
    textContent root' = textContent root := by
  unfold wrapSameNode at h
  cases hsp : sp.getLast? with
  | none =>
    simp only [hsp] at h
    exact Except.noConfusion h
  | some k =>
    simp only [hsp] at h
    split at h
    · rename_i root'' heq
      cases h
      refine modifyAt_textContent _ root _ _ ?_ heq
      intro n n' hf
      cases n with
      | text s => simp at hf
      | elem t c u cs =>
        cases hget : cs.get? k with
        | none =>
          simp only [hget] at hf
          exact Option.noConfusion hf
        | some child =>
          cases child with
          | elem t2 c2 u2 cs2 =>
            simp only [hget] at hf
            exact Option.noConfusion hf
          | text s =>
            simp only [hget] at hf
            split at hf
            · rename_i hle
              cases hf
              have hs : s.take so ++ ((s.take eo).drop so ++ s.drop eo) = s :=
                take_mid_drop s so eo hle.1
              show textContentList _ = textContentList cs
              conv_rhs => rw [list_decomp_get? cs _ _ hget]
              simp only [textContentList_append, textContentList, textContent,
                List.append_nil, List.append_assoc]
              conv_rhs => rw [← hs]
              simp [List.append_assoc]
            · cases hf
    · cases h

theorem wrapSameParent_textContent (root : DomNode) (sp : Path) (so : Nat) (ep : Path)
    (eo : Nat) (cls : Str) (uid : Nat) (root' : DomNode)
    (h : wrapSameParent root sp so ep eo cls uid = Except.ok root') :
    textContent root' = textContent root := by
  unfold wrapSameParent at h
  cases hsp : sp.getLast? with
  | none =>
    simp only [hsp] at h
    exact Except.noConfusion h
  | some k1 =>
    cases hep : ep.getLast? with
    | none =>
      simp only [hsp, hep] at h
      exact Except.noConfusion h
    | some k2 =>
      simp only [hsp, hep] at h
      split at h
      · rename_i hk
        split at h
        · rename_i root'' heq
          cases h
          refine modifyAt_textContent _ root _ _ ?_ heq
          intro n n' hf
          cases n with
          | text s => simp at hf
          | elem t c u cs =>
            cases hget1 : cs.get? k1 with
            | none =>
              simp only [hget1] at hf
              exact Option.noConfusion hf
            | some child1 =>
              cases hget2 : cs.get? k2 with
              | none =>
                simp only [hget1, hget2] at hf
                exact Option.noConfusion hf
              | some child2 =>
                cases child1 with
                | elem ta ca ua csa =>
                  simp only [hget1, hget2] at hf
                  exact Option.noConfusion hf
                | text s1 =>
                  cases child2 with
                  | elem tb cb ub csb =>
                    simp only [hget1, hget2] at hf
                    exact Option.noConfusion hf
                  | text s2 =>
                    simp only [hget1, hget2] at hf
                    split at hf
                    · rename_i hle
                      cases hf
                      show textContentList _ = textContentList cs
                      have hd2 : cs.drop (k1 + 1)
                          = (cs.drop (k1 + 1)).take (k2 - k1 - 1)
                            ++ DomNode.text s2 :: cs.drop (k2 + 1) := by
                        have hg : (cs.drop (k1 + 1)).get? (k2 - k1 - 1)
                            = some (DomNode.text s2) := by
                          rw [List.get?_drop]
                          have he : k1 + 1 + (k2 - k1 - 1) = k2 := by omega
                          rw [he]
                          exact hget2
                        have hx := list_decomp_get? (cs.drop (k1 + 1)) (k2 - k1 - 1)
                          (DomNode.text s2) hg
                        rw [hx]
                        congr 2
                        rw [List.drop_drop]
                        congr 1
                        omega
                      conv_rhs => rw [list_decomp_get? cs _ _ hget1]
                      conv_rhs => rw [hd2]
                      simp only [textContentList_append, textContentList, textContent,
                        List.append_nil, List.append_assoc]
                      have hs1 : s1.take so ++ s1.drop so = s1 :=
                        List.take_append_drop _ _
                      have hs2 : s2.take eo ++ s2.drop eo = s2 :=
                        List.take_append_drop _ _
                      conv_rhs => rw [← hs1, ← hs2]
                      simp only [List.append_eq, List.nil_append, textContentList_append,
                        textContentList, textContent, List.append_nil, List.append_assoc]
                    · cases hf
        · cases h
      · cases h

theorem surroundContents_textContent (root : DomNode) (sp : Path) (so : Nat) (ep : Path)
    (eo : Nat) (cls : Str) (uid : Nat) (root' : DomNode)
    (h : surroundContents root sp so ep eo cls uid = Except.ok root') :
    textContent root' = textContent root := by
  unfold surroundContents at h
  split at h
  · exact wrapSameNode_textContent root sp so eo cls uid root' h
  · exact wrapSameParent_textContent root sp so ep eo cls uid root' h

theorem extractAndInsert_textContent (root : DomNode) (sp : Path) (so : Nat) (ep : Path)
    (eo : Nat) (cls : Str) (uid : Nat) (root' : DomNode)
    (h : extractAndInsert root sp so ep eo cls uid = Except.ok root') :
    textContent root' = textContent root := by
  unfold extractAndInsert at h
  cases hep : ep.getLast? with
  | none =>
    simp only [hep] at h
    exact Except.noConfusion h
  | some ke =>
    simp only [hep] at h
    split at h
    · rename_i hcond
      cases hjb : sp.get? ep.dropLast.length with
      | none =>
        simp only [hjb] at h
        exact Except.noConfusion h
      | some jb =>
        cases hit : sp.get? (ep.dropLast.length + 1) with
        | none =>
          simp only [hjb, hit] at h
          exact Except.noConfusion h
        | some it =>
          simp only [hjb, hit] at h
          split at h
          · rename_i hjk
            split at h
            · rename_i root'' heq
              cases h
              refine modifyAt_textContent _ root _ _ ?_ heq
              intro n n' hf
              cases n with
              | text s => simp at hf
              | elem tA cA uA cs =>
                cases hget1 : cs.get? jb with
                | none =>
              simp only [hget1] at hf
              exact Option.noConfusion hf
                | some child1 =>
                  cases hget2 : cs.get? ke with
                  | none =>
                simp only [hget1, hget2] at hf
                exact Option.noConfusion hf
                  | some child2 =>
                    cases child1 with
                    | text sa =>
                      simp only [hget1, hget2] at hf
                      exact Option.noConfusion hf
                    | elem tE cE uE csE =>
                      cases child2 with
                      | elem tb cb ub csb =>
                    simp only [hget1, hget2] at hf
                    exact Option.noConfusion hf
                      | text s2 =>
                        cases hgetE : csE.get? it with
                        | none =>
                        simp only [hget1, hget2, hgetE] at hf
                        exact Option.noConfusion hf
                        | some childE =>
                          cases childE with
                          | elem tc cc uc csc =>
                            simp only [hget1, hget2, hgetE] at hf
                            exact Option.noConfusion hf
                          | text s1 =>
                            simp only [hget1, hget2, hgetE] at hf
                            split at hf
                            · rename_i hle
                              cases hf
                              show textContentList _ = textContentList cs
                              have hd2 : cs.drop (jb + 1)
                                  = (cs.drop (jb + 1)).take (ke - jb - 1)
                                    ++ DomNode.text s2 :: cs.drop (ke + 1) := by
                                have hg : (cs.drop (jb + 1)).get? (ke - jb - 1)
                                    = some (DomNode.text s2) := by
                                  rw [List.get?_drop]
                                  have he : jb + 1 + (ke - jb - 1) = ke := by omega
                                  rw [he]
                                  exact hget2
                                have hx := list_decomp_get? (cs.drop (jb + 1))
                                  (ke - jb - 1) (DomNode.text s2) hg
                                rw [hx]
                                congr 2
                                rw [List.drop_drop]
                                congr 1
                                omega
                              conv_rhs => rw [list_decomp_get? cs _ _ hget1]
                              conv_rhs => rw [hd2]
                              simp only [textContentList_append, textContentList,
                                textContent, List.append_nil, List.append_assoc]
                              conv_rhs => rw [list_decomp_get? csE _ _ hgetE]
                              simp only [textContentList_append, textContentList,
                                textContent, List.append_nil, List.append_assoc]
                              have hs1 : s1.take so ++ s1.drop so = s1 :=
                                List.take_append_drop _ _
                              have hs2 : s2.take eo ++ s2.drop eo = s2 :=
                                List.take_append_drop _ _
                              conv_rhs => rw [← hs1, ← hs2]
                              simp only [List.append_eq, List.nil_append,
                                textContentList_append, textContentList, textContent,
                                List.append_nil, List.append_assoc]
                            · cases hf
            · cases h
          · cases h
    · cases h

theorem mergeTextNodes_textContent : ∀ (cs : List DomNode),
    textContentList (mergeTextNodes cs) = textContentList cs
  | [] => rfl
  | DomNode.text s :: rest => by
    have ih := mergeTextNodes_textContent rest
    simp only [mergeTextNodes]
    split
    · rename_i hs
      subst hs
      simp only [textContentList, textContent, List.nil_append]
      exact ih
    · cases hm : mergeTextNodes rest with
      | nil =>
        rw [hm] at ih
        simp only [textContentList, textContent] at ih ⊢
        rw [← ih]
      | cons hd tl =>
        cases hd with
        | text s2 =>
          rw [hm] at ih
          simp only [textContentList, textContent] at ih ⊢
          rw [← ih]
          simp [List.append_assoc]
        | elem t2 c2 u2 cs2 =>
          rw [hm] at ih
          simp only [textContentList, textContent] at ih ⊢
          rw [← ih]
  | DomNode.elem t c u cs2 :: rest => by
    have ih := mergeTextNodes_textContent rest
    simp only [mergeTextNodes, textContentList]
    rw [ih]

mutual

theorem normalizeDom_textContent : ∀ (n : DomNode),
    textContent (normalizeDom n) = textContent n
  | DomNode.text _ => rfl
  | DomNode.elem t c u cs => by
    simp only [normalizeDom, textContent]
    rw [mergeTextNodes_textContent, normalizeDomList_textContent cs]

theorem normalizeDomList_textContent : ∀ (cs : List DomNode),
    textContentList (normalizeDomList cs) = textContentList cs
  | [] => rfl
  | c :: rest => by
    simp only [normalizeDomList, textContentList]
    rw [normalizeDom_textContent c, normalizeDomList_textContent rest]

end

theorem removeHighlight_textContent (doc : DomNode) (uid : Nat) :
    textContent (removeHighlight doc uid) = textContent doc := by
  unfold removeHighlight
  cases hp : findPathOfUid uid doc with
  | none => rfl
  | some p =>
    cases hl : p.getLast? with
    | none => simp only [hl]
    | some k =>
      simp only [hl]
      cases hmod : modifyAt doc p.dropLast (fun parent =>
        match parent with
        | DomNode.elem t c u cs =>
          match cs.get? k with
          | some (DomNode.elem _ _ _ gcs) =>
            some (normalizeDom (DomNode.elem t c u (cs.take k ++ gcs ++ cs.drop (k + 1))))
          | _ => none
        | DomNode.text _ => none) with
      | none => simp only [hmod]
      | some doc' =>
        simp only [hmod]
        show textContent doc' = textContent doc
        refine modifyAt_textContent _ doc _ _ ?_ hmod
        intro n n' hf
        cases n with
        | text s => exact Option.noConfusion hf
        | elem t c u cs =>
          cases hget : cs.get? k with
          | none =>
            simp only [hget] at hf
            exact Option.noConfusion hf
          | some child =>
            cases child with
            | text s =>
              simp only [hget] at hf
              exact Option.noConfusion hf
            | elem tg cg ug gcs =>
              simp only [hget] at hf
              cases hf
              rw [normalizeDom_textContent]
              show textContentList _ = textContentList cs
              conv_rhs => rw [list_decomp_get? cs _ _ hget]
              simp only [textContentList_append, textContentList, textContent,
                List.append_nil, List.append_assoc]

theorem foldl_removeHighlight_textContent : ∀ (uids : List Nat) (doc : DomNode),
    textContent (uids.foldl removeHighlight doc) = textContent doc
  | [], _ => rfl
  | u :: rest, doc => by
    rw [List.foldl_cons, foldl_removeHighlight_textContent rest,
      removeHighlight_textContent]

theorem clearHighlights_textContent (st : TextHighlighter) :
    textContent (clearHighlights st).doc = textContent st.doc := by
  simp only [clearHighlights]
  exact foldl_removeHighlight_textContent st.highlightedElements st.doc

theorem createHighlightElementAlternative_textContent (root : DomNode)
    (r : DOMRange Path) (cls : Str) (uid : Nat) (root' : DomNode)
    (h : createHighlightElementAlternative root r cls uid = Except.ok (some root')) :
    textContent root' = textContent root := by
  unfold createHighlightElementAlternative at h
  split at h
  · rename_i hx
    cases h
    exact extractAndInsert_textContent root _ _ _ _ cls uid root' hx
  · cases h

theorem createHighlightElement_textContent (root : DomNode) (r : DOMRange Path)
    (m : ManipulationBlock) (mode : Str) (uid : Nat) (root' : DomNode)
    (h : createHighlightElement root r m mode uid = Except.ok (some root')) :
    textContent root' = textContent root := by
  simp only [createHighlightElement] at h
  split at h
  · cases h
  · split at h
    · rename_i hx
      cases h
      exact surroundContents_textContent root _ _ _ _ _ uid root' hx
    · exact createHighlightElementAlternative_textContent root r _ uid root' h

theorem foldlM_preserve {S A E : Type} (P : S → Prop) (f : S → A → Except E S)
    (hf : ∀ s a s', f s a = Except.ok s' → P s → P s') :
    ∀ (l : List A) (s s' : S), l.foldlM f s = Except.ok s' → P s → P s' := by
  intro l
  induction l with
  | nil =>
    intro s s' h hp
    cases h
    exact hp
  | cons a rest ih =>
    intro s s' h hp
    rw [List.foldlM_cons] at h
    cases hfa : f s a with
    | error e =>
      rw [hfa] at h
      exact Except.noConfusion h
    | ok s1 =>
      rw [bind_ok _ _ _ hfa] at h
      exact ih s1 s' h (hf s a s1 hfa hp)

theorem highlightManipulation_textContent (st : TextHighlighter)
    (m : ManipulationBlock) (st' : TextHighlighter)
    (h : highlightManipulation st m = Except.ok st') :
    textContent st'.doc = textContent st.doc := by
  simp only [highlightManipulation] at h
  refine foldlM_preserve (fun s => textContent s.doc = textContent st.doc) _ ?_ _ st st' h rfl
  intro s r s' hstep hp
  cases hv : createHighlightElement s.doc r m s.currentMode s.nextUid with
  | error e =>
    rw [hv] at hstep
    exact Except.noConfusion hstep
  | ok res =>
    rw [bind_ok _ _ _ hv] at hstep
    cases res with
    | none =>
      cases hstep
      exact hp
    | some doc' =>
      cases hstep
      show textContent doc' = textContent st.doc
      rw [createHighlightElement_textContent s.doc r m s.currentMode s.nextUid doc' hv]
      exact hp

theorem highlightManipulations_textContent (st : TextHighlighter)
    (manipulations : List ManipulationBlock) (mode : Str) (st' : TextHighlighter)
    (h : highlightManipulations st manipulations mode = Except.ok st') :
    textContent st'.doc = textContent st.doc := by
  simp only [highlightManipulations] at h
  have hstart : textContent (clearHighlights { st with currentMode := mode }).doc
      = textContent st.doc := clearHighlights_textContent _
  exact foldlM_preserve (fun s => textContent s.doc = textContent st.doc) _
    (fun s mm s' hs hp => by
      show textContent s'.doc = textContent st.doc
      rw [highlightManipulation_textContent s mm s' hs]
      exact hp) manipulations _ st' h hstart

/-- **C3** (confirmed).  For every highlighter state, list of spans and mode,
if `highlightManipulations` (applyAnnotations) returns a state, then
`clearHighlights` on that state restores the document text content exactly to
the pre-annotation text, and a second consecutive `clearHighlights` call is a
no-op: it returns the state (document included) unchanged. -/
theorem c3_clear_restores_text (st : TextHighlighter)
    (manipulations : List ManipulationBlock) (mode : Str) (st' : TextHighlighter)
    (h : highlightManipulations st manipulations mode = Except.ok st') :
    textContent (clearHighlights st').doc = textContent st.doc ∧
    clearHighlights (clearHighlights st') = clearHighlights st' := by
  constructor
  · rw [clearHighlights_textContent,
      highlightManipulations_textContent st manipulations mode st' h]
  · rfl

/-- A concrete annotate-then-clear run for C3: the span "ab" is found and
materialized (the marker list is nonempty), and clearing restores the
original text and is idempotent. -/
def stC3 : TextHighlighter :=
  { doc := DomNode.elem (str "body") (str "") 0 [DomNode.text (str "ab")],
    highlightedElements := [], currentMode := str "full-color",
    tooltipVisible := false, nextUid := 1 }

def mC3 : ManipulationBlock :=
  { original_text := str "ab", manipulation_type := str "loaded_language",
    manipulation_description := str "d", confidence := 1 }

set_option maxRecDepth 4000 in
theorem c3_witness :
    ∃ st', highlightManipulations stC3 [mC3] (str "full-color") = Except.ok st' ∧
      st'.highlightedElements ≠ [] ∧
      textContent (clearHighlights st').doc = textContent stC3.doc ∧
      clearHighlights (clearHighlights st') = clearHighlights st' :=
  ⟨_, rfl, by decide,
    (c3_clear_restores_text stC3 [mC3] (str "full-color") _ rfl).1,
    (c3_clear_restores_text stC3 [mC3] (str "full-color") _ rfl).2⟩

/-! ## Claim C2: marker geometry after applyAnnotations -/

mutual

theorem markerIntervals_bounds : ∀ (n : DomNode) (off : Nat),
    ∀ p ∈ markerIntervals n off,
      off ≤ p.1 ∧ p.1 ≤ p.2 ∧ p.2 ≤ off + (textContent n).length
  | DomNode.text s, off => by
    intro p hp
    simp [markerIntervals] at hp
  | DomNode.elem t cls u cs, off => by
    intro p hp
    simp only [markerIntervals, List.mem_append] at hp
    cases hp with
    | inl h1 =>
      split at h1
      · simp only [List.mem_singleton] at h1
        subst h1
        simp only [textContent]
        omega
      · simp at h1
    | inr h2 =>
      have h := markerIntervalsList_bounds cs off p h2
      simpa only [textContent] using h

theorem markerIntervalsList_bounds : ∀ (cs : List DomNode) (off : Nat),
    ∀ p ∈ markerIntervalsList cs off,
      off ≤ p.1 ∧ p.1 ≤ p.2 ∧ p.2 ≤ off + (textContentList cs).length
  | [], off => by
    intro p hp
    simp [markerIntervalsList] at hp
  | c :: rest, off => by
    intro p hp
    simp only [markerIntervalsList, List.mem_append] at hp
    cases hp with
    | inl h1 =>
      have h := markerIntervals_bounds c off p h1
      have hlen : (textContentList (c :: rest)).length
          = (textContent c).length + (textContentList rest).length := by
        simp [textContentList]
      omega
    | inr h2 =>
      have h := markerIntervalsList_bounds rest (off + (textContent c).length) p h2
      have hlen : (textContentList (c :: rest)).length
          = (textContent c).length + (textContentList rest).length := by
        simp [textContentList]
      omega

end

mutual

theorem markerIntervals_laminar : ∀ (n : DomNode) (off : Nat),
    Laminar (markerIntervals n off)
  | DomNode.text s, off => by
    intro p hp
    simp [markerIntervals] at hp
  | DomNode.elem t cls u cs, off => by
    intro p hp q hq
    simp only [markerIntervals, List.mem_append] at hp hq
    cases hp with
    | inl hp1 =>
      have hp' : p = (off, off + (textContentList cs).length) := by
        split at hp1
        · simpa only [List.mem_singleton] using hp1
        · simp at hp1
      cases hq with
      | inl hq1 =>
        have hq' : q = (off, off + (textContentList cs).length) := by
          split at hq1
          · simpa only [List.mem_singleton] using hq1
          · simp at hq1
        subst hp'
        subst hq'
        right; right; left
        exact ⟨le_refl _, le_refl _⟩
      | inr hq2 =>
        have hb := markerIntervalsList_bounds cs off q hq2
        subst hp'
        right; right; left
        exact ⟨hb.1, hb.2.2⟩
    | inr hp2 =>
      cases hq with
      | inl hq1 =>
        have hq' : q = (off, off + (textContentList cs).length) := by
          split at hq1
          · simpa only [List.mem_singleton] using hq1
          · simp at hq1
        have hb := markerIntervalsList_bounds cs off p hp2
        subst hq'
        right; right; right
        exact ⟨hb.1, hb.2.2⟩
      | inr hq2 => exact markerIntervalsList_laminar cs off p hp2 q hq2

theorem markerIntervalsList_laminar : ∀ (cs : List DomNode) (off : Nat),
    Laminar (markerIntervalsList cs off)
  | [], off => by
    intro p hp
    simp [markerIntervalsList] at hp
  | c :: rest, off => by
    intro p hp q hq
    simp only [markerIntervalsList, List.mem_append] at hp hq
    cases hp with
    | inl hp1 =>
      cases hq with
      | inl hq1 => exact markerIntervals_laminar c off p hp1 q hq1
      | inr hq2 =>
        left
        have h1 := markerIntervals_bounds c off p hp1
        have h2 := markerIntervalsList_bounds rest (off + (textContent c).length) q hq2
        omega
    | inr hp2 =>
      cases hq with
      | inl hq1 =>
        right; left
        have h1 := markerIntervals_bounds c off q hq1
        have h2 := markerIntervalsList_bounds rest (off + (textContent c).length) p hp2
        omega
      | inr hq2 =>
        exact markerIntervalsList_laminar rest (off + (textContent c).length) p hp2 q hq2

end

/-- The C2 counterexample document: `body > p` holds the text "ab ", a bold
element with "cd", and the text "ef" — so "ab cd ef" spans three siblings
while "cd ef" starts inside the bold element. -/
def docC2 : DomNode :=
  DomNode.elem (str "body") (str "") 0
    [DomNode.elem (str "p") (str "") 100
      [DomNode.text (str "ab "),
       DomNode.elem (str "b") (str "") 101 [DomNode.text (str "cd")],
       DomNode.text (str "ef")]]

def stC2 : TextHighlighter :=
  { doc := docC2, highlightedElements := [], currentMode := str "full-color",
    tooltipVisible := false, nextUid := 1 }

def msC2 : List ManipulationBlock :=
  [{ original_text := str "ab cd ef", manipulation_type := str "loaded_language",
     manipulation_description := str "d", confidence := 1 },
   { original_text := str "cd ef", manipulation_type := str "loaded_language",
     manipulation_description := str "d", confidence := 1 }]

set_option maxRecDepth 8000 in
set_option maxHeartbeats 4000000 in
/-- Counterexample to C2 as stated: after this `highlightManipulations` run
both spans are materialized and their markers occupy the text intervals
(0, 7) and (3, 7) — sharing positions 3..6, so the markers are neither
separated nor position-disjoint.  `isRangeHighlighted` misses the overlap
because for an element-node common ancestor it only searches marker
descendants while the first marker is the ancestor itself. -/
theorem c2_counterexample :
    (highlightManipulations stC2 msC2 (str "full-color")).toOption.map
        (fun s => markerIntervals s.doc 0) = some [(0, 7), (3, 7)] ∧
    intervalsOverlap (0, 7) (3, 7) ∧ ¬ (7 ≤ 3 ∨ 7 ≤ 0) := by
  refine ⟨by decide, ?_, by decide⟩
  exact ⟨by decide, by decide⟩

/-- **C2** (corrected).  Markers produced by `highlightManipulations` can
overlap in text positions (see `c2_counterexample`), but only in the nested
way forced by the DOM tree: the marker intervals of the resulting document
always form a laminar family — any two are disjoint or one contains the
other. -/
theorem c2_markers_disjoint_or_nested (st : TextHighlighter)
    (manipulations : List ManipulationBlock) (mode : Str) (st' : TextHighlighter)
    (h : highlightManipulations st manipulations mode = Except.ok st') :
    Laminar (markerIntervals st'.doc 0) :=
  markerIntervals_laminar st'.doc 0

set_option maxRecDepth 8000 in
set_option maxHeartbeats 8000000 in
/-- Witness for C2 at the counterexample run: the pipeline returns a state
and its (overlapping) marker intervals are laminar. -/
theorem c2_witness :
    ∃ st', highlightManipulations stC2 msC2 (str "full-color") = Except.ok st' ∧
      Laminar (markerIntervals st'.doc 0) :=
  ⟨_, rfl, c2_markers_disjoint_or_nested stC2 msC2 (str "full-color") _ rfl⟩

end ManipuCheck
